import Mathlib

/-
Verification development for the Enshrouded world duplicator
(src/world_duplicator.py).

The Python core is shallowly embedded:

* JSON values that appear in the two sidecar documents are modelled by
  `Val` (strings, integers, booleans); a JSON object is a `Doc`, an
  association list with Python-dict semantics (first-key lookup,
  in-place update, append on fresh key).
* The save directory is a flat map from file name to `Content`.
  `Content.blob` is a byte payload that fails JSON parsing,
  `Content.doc` is a serialized index document, and `Content.meta` is
  the serialized metadata store (`enshrouded_user.json`, a JSON object
  whose `worlds` key holds a list of entry objects; `none` models a
  store without a `worlds` key).  Backup directories live beside the
  save files as a map from directory name to directory contents.
* Clock reads (`time.time()`, `time.strftime`) are passed in as the
  `now` / `ts` parameters; within one `duplicate_world` call the two
  `int(time.time())` reads are modelled by the single `now` value.
* The fault injected by the repository's rollback test (a
  `shutil.copy2` that raises on the n-th call) is the `failAt`
  parameter of `duplicate_world`; `failAt = none` is a fault-free run.
* Python `str.lower` / `Char` case folding is modelled on ASCII, and
  the typed metadata fields (`name`, `createdAt`, `lastPlayed`) are
  read at the types the save-file format fixes for them.
-/

/-- A JSON scalar value as it occurs in the world index and metadata
store documents. -/
inductive Val where
  | vStr : String → Val
  | vInt : Int → Val
  | vBool : Bool → Val
deriving DecidableEq

/-- A JSON object: association list with Python-dict semantics. -/
abbrev Doc := List (String × Val)

/-- Contents of one file in the save directory. -/
inductive Content where
  | blob : String → Content
  | doc : Doc → Content
  | meta : Option (List Doc) → Content
deriving DecidableEq

/-- A flat directory: file name to content. -/
abbrev FS := List (String × Content)

/-- Dictionary lookup: first entry with the given key. -/
def aget {α : Type} : List (String × α) → String → Option α
  | [], _ => none
  | p :: rest, k => if p.1 = k then some p.2 else aget rest k

/-- Dictionary update: replace the first entry with the given key in
place, or append a fresh entry (Python `d[k] = v`). -/
def aset {α : Type} : List (String × α) → String → α → List (String × α)
  | [], k, v => [(k, v)]
  | p :: rest, k, v => if p.1 = k then (k, v) :: rest else p :: aset rest k v

/-- Remove every entry with the given key (file deletion / move-out). -/
def adel {α : Type} : List (String × α) → String → List (String × α)
  | [], _ => []
  | p :: rest, k => if p.1 = k then adel rest k else p :: adel rest k

/-- Boolean prefix test on character lists (used to model the
`"{id}-*"` / `"{id}_info-*"` globs of `WorldInfo.files`). -/
def listIsPre : List Char → List Char → Bool
  | [], _ => true
  | _ :: _, [] => false
  | a :: as, b :: bs => a == b && listIsPre as bs

/-- Boolean suffix test, used to model the `"*-index"` glob of
`scan_worlds`. -/
def endsWithB (p s : String) : Bool :=
  listIsPre p.toList.reverse s.toList.reverse

/-- Python `name.split('-')[0]`: the characters before the first dash
(`scan_worlds`, line 155). -/
def worldIdOf (n : String) : String :=
  ⟨n.toList.takeWhile (fun c => !(c == '-'))⟩

/-- Does file name `n` belong to world `id`?  Model of the two globs
`"{id}-*"` and `"{id}_info-*"` in `WorldInfo.files`. -/
def matchesGlob (id n : String) : Bool :=
  listIsPre (id ++ "-").toList n.toList || listIsPre (id ++ "_info-").toList n.toList

/-- ASCII model of Python `str.lower`, used for the case-insensitive
sort key in `scan_worlds`. -/
def strLower (s : String) : String :=
  ⟨s.toList.map Char.toLower⟩

/-- Lexicographic (code-point) order on character lists: Python's
string comparison as used by `sorted`. -/
def listLeB : List Char → List Char → Bool
  | [], _ => true
  | _ :: _, [] => false
  | a :: as, b :: bs => if a = b then listLeB as bs else Nat.blt a.toNat b.toNat

/-- Python string comparison `s <= t`. -/
def strLeB (s t : String) : Bool :=
  listLeB s.toList t.toList

/-- Python `str.replace` (all occurrences, scanning left to right,
non-overlapping), on the fuel-indexed character list; the fuel bounds
the number of steps and is instantiated with the list length. -/
def pyRepAux (old new : List Char) : Nat → List Char → List Char
  | _, [] => []
  | 0, l => l
  | f + 1, c :: rest =>
    if listIsPre old (c :: rest) then
      new ++ pyRepAux old new f (rest.drop (old.length - 1))
    else
      c :: pyRepAux old new f rest

/-- Python `s.replace(old, new)` for a non-empty pattern (world ids are
non-empty; the empty-pattern intersperse behavior is not modelled). -/
def pyReplace (old new s : String) : String :=
  if old.isEmpty then s else ⟨pyRepAux old.toList new.toList s.toList.length s.toList⟩

/-- The copy-phase name derivation of `duplicate_world` (line 206):
`source_file.name.replace(source_id, target_id)`. -/
def new_name (source_id target_id n : String) : String :=
  pyReplace source_id target_id n

/-- Does `old` occur as a contiguous substring of `l`? -/
def hasOccurB (old : List Char) : List Char → Bool
  | [] => old.isEmpty
  | c :: rest => listIsPre old (c :: rest) || hasOccurB old rest

/-- Python truthiness of a JSON scalar (`not self.is_deleted` and
`index_data.get("deleted", False)` apply truthiness to the raw value). -/
def truthy : Val → Bool
  | .vStr s => !(s == "")
  | .vInt z => !(z == 0)
  | .vBool b => b

/-- Python `world.get(k, default)` restricted to string-typed fields (the
save-file format fixes `name` as a string). -/
def getStrD (d : Doc) (k : String) (dflt : String) : String :=
  match aget d k with
  | some (.vStr s) => s
  | _ => dflt

/-- Python `world.get(k, 0)` restricted to integer-typed fields (`createdAt`,
`lastPlayed`). -/
def getIntD (d : Doc) (k : String) (dflt : Int) : Int :=
  match aget d k with
  | some (.vInt z) => z
  | _ => dflt

/-- Model of `json.load` on an index file, with `_read_index_file`'s degrade-to-
empty-document behavior on parse failure (lines 121-128). -/
def parseDoc : Content → Doc
  | .doc d => d
  | _ => []

/-- In-memory world record (`WorldInfo` dataclass).  The `path` field
is the save directory itself; files are recomputed live from the
current directory contents by `filesOf`. -/
structure WorldInfo where
  id : String
  name : String
  index_data : Doc
  is_deleted : Bool
  last_played : Int
  created_at : Int
deriving DecidableEq

/-- Model of `WorldInfo.files`: both globs, concatenated and lexicographically
sorted (the two patterns are disjoint, so this equals sorting the
filtered name list). -/
def filesOf (id : String) (fs : FS) : List String :=
  List.insertionSort (fun a b => strLeB a b = true)
    ((fs.map Prod.fst).filter (matchesGlob id))

/-- Validity check `WorldInfo.is_valid`: not deleted and at least one file on disk. -/
def WorldInfo.is_valid (w : WorldInfo) (fs : FS) : Bool :=
  !w.is_deleted && !(filesOf w.id fs).isEmpty

/-- Model of `WorldInfo.display_name`; `fmt` stands for the
`time.strftime('%Y-%m-%d %H:%M', time.localtime(t))` rendering. -/
def display_name (w : WorldInfo) (fmt : Int → String) : String :=
  if w.last_played ≠ 0 then
    w.name ++ " (Last played: " ++ fmt w.last_played ++ ")"
  else if w.name ≠ "" then w.name
  else "World " ++ ⟨w.id.toList.take 6⟩

/-- In-memory manager state (`WorldManager`): the world cache, the
loaded metadata store (`none` models a store without a `worlds` key),
and the cached scan result. -/
structure Manager where
  worlds : List (String × WorldInfo)
  metadata : Option (List Doc)
  world_list_cache : List (String × String)
deriving DecidableEq

/-- On-disk state: the save directory files and the backup directories
living beside them (directories do not match the file globs). -/
structure DiskState where
  save : FS
  backups : List (String × FS)
deriving DecidableEq

/-- Lookup `self.worlds[id]` in the world cache. -/
def mlookup (ws : List (String × WorldInfo)) (id : String) : Option WorldInfo :=
  aget ws id

/-- Model of `_get_world_metadata` (lines 130-142): name and timestamps for an
id, defaulting to empty/zero. -/
def get_world_metadata (meta : Option (List Doc)) (world_id : String) :
    String × Int × Int :=
  match meta with
  | none => ("", 0, 0)
  | some ws =>
    match ws.find? (fun w => aget w "id" == some (.vStr world_id)) with
    | some w => (getStrD w "name" "", getIntD w "createdAt" 0, getIntD w "lastPlayed" 0)
    | none => ("", 0, 0)

/-- Accumulator of the scan loop: processed ids, world cache under
construction, and the unsorted (display name, id) list. -/
structure ScanAcc where
  processed : List String
  worlds : List (String × WorldInfo)
  wlist : List (String × String)

/-- One iteration of the `scan_worlds` loop (lines 154-181) for one
directory entry. -/
def scanStep (meta : Option (List Doc)) (save : FS) (fmt : Int → String)
    (acc : ScanAcc) (e : String × Content) : ScanAcc :=
  if endsWithB "-index" e.1 then
    let wid := worldIdOf e.1
    if wid = "characters" ∨ wid ∈ acc.processed then acc
    else
      let idx := parseDoc e.2
      let isDel := truthy ((aget idx "deleted").getD (.vBool false))
      let md := get_world_metadata meta wid
      let info : WorldInfo := ⟨wid, md.1, idx, isDel, md.2.2, md.2.1⟩
      if info.is_valid save then
        ⟨acc.processed ++ [wid], acc.worlds ++ [(wid, info)],
          acc.wlist ++ [(display_name info fmt, wid)]⟩
      else
        ⟨acc.processed ++ [wid], acc.worlds, acc.wlist⟩
  else acc

/-- Sort key relation of `scan_worlds` (line 183):
`sorted(world_list, key=lambda x: x[0].lower())`. -/
def scanOrd (p q : String × String) : Prop :=
  strLeB (strLower p.1) (strLower q.1) = true

instance : DecidableRel scanOrd :=
  fun p q => inferInstanceAs (Decidable (strLeB (strLower p.1) (strLower q.1) = true))

def char_toNat_inj {u v : Char} (h : u.toNat = v.toNat) : u = v := by
  rw [← Char.ofNat_toNat u, h, Char.ofNat_toNat]

def listLeB_total (a b : List Char) :
    listLeB a b = true ∨ listLeB b a = true := by
  induction a generalizing b with
  | nil => exact Or.inl rfl
  | cons x xs ih =>
    cases b with
    | nil => exact Or.inr rfl
    | cons y ys =>
      by_cases hxy : x = y
      · subst hxy
        rcases ih ys with h | h
        · exact Or.inl (by simpa [listLeB] using h)
        · exact Or.inr (by simpa [listLeB] using h)
      · rcases Nat.lt_or_ge x.toNat y.toNat with h | h
        · refine Or.inl ?_
          rw [listLeB, if_neg hxy, Nat.blt_eq]
          exact h
        · have hyx : y.toNat < x.toNat := by
            rcases Nat.lt_or_ge y.toNat x.toNat with h' | h'
            · exact h'
            · exact absurd (char_toNat_inj (Nat.le_antisymm h h'))
                (fun hc => hxy hc.symm)
          refine Or.inr ?_
          rw [listLeB, if_neg (fun hc => hxy hc.symm), Nat.blt_eq]
          exact hyx

def listLeB_trans {a b c : List Char} (h1 : listLeB a b = true)
    (h2 : listLeB b c = true) : listLeB a c = true := by
  induction a generalizing b c with
  | nil => rfl
  | cons x xs ih =>
    cases b with
    | nil => simp [listLeB] at h1
    | cons y ys =>
      cases c with
      | nil => simp [listLeB] at h2
      | cons z zs =>
        by_cases hxy : x = y
        · subst hxy
          rw [listLeB, if_pos rfl] at h1
          by_cases hyz : x = z
          · subst hyz
            rw [listLeB, if_pos rfl] at h2
            rw [listLeB, if_pos rfl]
            exact ih h1 h2
          · rw [listLeB, if_neg hyz] at h2
            rw [listLeB, if_neg hyz]
            exact h2
        · rw [listLeB, if_neg hxy] at h1
          rw [Nat.blt_eq] at h1
          by_cases hyz : y = z
          · subst hyz
            rw [listLeB, if_neg hxy, Nat.blt_eq]
            exact h1
          · rw [listLeB, if_neg hyz, Nat.blt_eq] at h2
            have hlt : x.toNat < z.toNat := Nat.lt_trans h1 h2
            have hxz : x ≠ z := by
              intro hc
              rw [hc] at hlt
              exact Nat.lt_irrefl _ hlt
            rw [listLeB, if_neg hxz, Nat.blt_eq]
            exact hlt

instance : IsTotal (String × String) scanOrd :=
  ⟨fun p q => listLeB_total (strLower p.1).toList (strLower q.1).toList⟩

instance : IsTrans (String × String) scanOrd :=
  ⟨fun _ _ _ h h' => listLeB_trans h h'⟩

/-- Model of `WorldManager.scan_worlds` (lines 144-184): rebuild the world cache
from the directory and return the sorted (display name, id) list. -/
def scan_worlds (m : Manager) (st : DiskState) (fmt : Int → String) :
    Manager × List (String × String) :=
  let acc := st.save.foldl (scanStep m.metadata st.save fmt) ⟨[], [], []⟩
  let sortedL := List.insertionSort scanOrd acc.wlist
  (⟨acc.worlds, m.metadata, sortedL⟩, sortedL)

/-- Move one file from the save directory into the backup directory
(`shutil.move(str(file), backup_dir / file.name)`, line 201).  Missing
names do not occur: the loop iterates over a live glob. -/
def moveStep (p : FS × FS) (n : String) : FS × FS :=
  match aget p.1 n with
  | some c => (adel p.1 n, aset p.2 n c)
  | none => p

/-- The backup loop of `duplicate_world` (lines 200-201). -/
def moveAll (names : List String) (p : FS × FS) : FS × FS :=
  names.foldl moveStep p

/-- Copy one file under a new name (`shutil.copy2`, line 208). -/
def copyStep (save : FS) (n newN : String) : FS :=
  match aget save n with
  | some c => aset save newN c
  | none => save

/-- The copy loop (lines 205-208) with the rollback test's injected
fault: the call numbered `failAt` (0-based) raises before copying. -/
def copyAll (sId tId : String) (names : List String) (save : FS)
    (failAt : Option Nat) (i : Nat) : Except FS FS :=
  match names with
  | [] => .ok save
  | n :: rest =>
    if failAt = some i then .error save
    else copyAll sId tId rest (copyStep save n (new_name sId tId n)) failAt (i + 1)

/-- The fault-free copy loop. -/
def copyList (sId tId : String) (names : List String) (save : FS) : FS :=
  names.foldl (fun sv n => copyStep sv n (new_name sId tId n)) save

/-- The exclusion test `key not in ["id", "time", "deleted"]` (lines 220 and 235). -/
def isExcl (k : String) : Bool :=
  k == "id" || k == "time" || k == "deleted"

/-- The `for key, value in source.index_data.items()` overlay loops
(lines 219-222 and 234-237). -/
def overlayIndex (base : Doc) (srcd : Doc) : Doc :=
  srcd.foldl (fun d kv => if isExcl kv.1 then d else aset d kv.1 kv.2) base

/-- Step 3's patched index document (lines 213-221): base is the parsed
live target index (a copy of the source's on-disk index), then `time`,
`deleted`, `latest` are forced and the source index fields overlaid. -/
def patchIndexDoc (base : Doc) (srcIdx : Doc) (now : Int) : Doc :=
  overlayIndex
    (aset (aset (aset base "time" (.vInt now)) "deleted" (.vBool false))
      "latest" ((aget srcIdx "latest").getD (.vInt 0)))
    srcIdx

/-- Step 3 on the filesystem (lines 211-224): rewrite
`{target_id}-index` if it exists, else skip. -/
def patchIndexFile (tId : String) (save : FS) (srcIdx : Doc) (now : Int) : FS :=
  match aget save (tId ++ "-index") with
  | none => save
  | some c => aset save (tId ++ "-index") (.doc (patchIndexDoc (parseDoc c) srcIdx now))

/-- Step 4's per-entry update (lines 231-237): `name`, `lastPlayed`,
then the source-index overlay. -/
def updateMetaEntry (srcIdx : Doc) (srcName : String) (now : Int) (w : Doc) : Doc :=
  overlayIndex
    (aset (aset w "name" (.vStr ("Copy of " ++ srcName))) "lastPlayed" (.vInt now))
    srcIdx

/-- The metadata-store loop (lines 229-238): update the first entry
whose `id` equals the target id, then break.  An entry without an `id`
key reached before the match raises `KeyError` (`world["id"]`). -/
def updateFirstMeta (tId : String) (upd : Doc → Doc) :
    List Doc → Except Unit (List Doc)
  | [] => .ok []
  | w :: ws =>
    match aget w "id" with
    | none => .error ()
    | some v =>
      if v = .vStr tId then .ok (upd w :: ws)
      else (updateFirstMeta tId upd ws).map (fun r => w :: r)

/-- Contents of the (possibly pre-existing) backup directory named
`bn`; `mkdir(parents=True, exist_ok=True)` keeps an existing one. -/
def getBackup (bs : List (String × FS)) (bn : String) : FS :=
  ((aget bs bn).getD [])

/-- The body of `duplicate_world` once both ids resolved (lines
195-249).  Any exception inside the `try` block is caught and turned
into a `none` result with the disk state as it was at the raise; the
only modelled raises are the injected copy fault and the `KeyError` on
a metadata entry without an `id` key. -/
def dupCore (src tgt : WorldInfo) (m : Manager) (st : DiskState)
    (sId tId : String) (now : Int) (ts : String) (failAt : Option Nat) :
    Option String × Manager × DiskState :=
  let bname := tId ++ "_backup_" ++ ts
  let pr := moveAll (filesOf tgt.id st.save) (st.save, getBackup st.backups bname)
  let backups1 := aset st.backups bname pr.2
  match copyAll sId tId (filesOf src.id pr.1) pr.1 failAt 0 with
  | .error saveE => (none, m, ⟨saveE, backups1⟩)
  | .ok save2 =>
    let save3 := patchIndexFile tId save2 src.index_data now
    match m.metadata with
    | none => (some bname, m, ⟨save3, backups1⟩)
    | some ws =>
      match updateFirstMeta tId (updateMetaEntry src.index_data src.name now) ws with
      | .error _ => (none, m, ⟨save3, backups1⟩)
      | .ok ws' =>
        (some bname, { m with metadata := some ws' },
          ⟨aset save3 "enshrouded_user.json" (.meta (some ws')), backups1⟩)

/-- Model of `WorldManager.duplicate_world` (lines 186-249).  `now` is the
`int(time.time())` reading, `ts` the `time.strftime('%Y%m%d%H%M%S')`
reading, `failAt` the injected copy fault (`none`: no fault). -/
def duplicate_world (m : Manager) (st : DiskState) (sId tId : String)
    (now : Int) (ts : String) (failAt : Option Nat) :
    Option String × Manager × DiskState :=
  match mlookup m.worlds sId, mlookup m.worlds tId with
  | some src, some tgt => dupCore src tgt m st sId tId now ts failAt
  | _, _ => (none, m, st)

/-- Metadata-store `worlds` entries of the repository's test fixture
(tests/test_world_manager.py, `sample_save_dir`). -/
def fixtureMeta : List Doc :=
  [[("id", .vStr "world1"), ("name", .vStr "World One"),
    ("createdAt", .vInt 0), ("lastPlayed", .vInt 0)],
   [("id", .vStr "world2"), ("name", .vStr "World Two"),
    ("createdAt", .vInt 0), ("lastPlayed", .vInt 0)]]

/-- Save-directory contents of the test fixture. -/
def fixtureSave : FS :=
  [("enshrouded_user.json", .meta (some fixtureMeta)),
   ("world1-index", .doc [("id", .vStr "world1"), ("time", .vInt 0),
      ("deleted", .vBool false), ("latest", .vInt 1)]),
   ("world1-data", .blob "source"),
   ("world2-index", .doc [("id", .vStr "world2"), ("time", .vInt 0),
      ("deleted", .vBool false), ("latest", .vInt 2)]),
   ("world2-data", .blob "target")]

/-- On-disk state of the test fixture (no backup directories yet). -/
def fixtureState : DiskState :=
  ⟨fixtureSave, []⟩

/-- Manager state after `set_save_directory` + `scan_worlds` on the
fixture (metadata loaded, then one scan). -/
def fixtureMgr : Manager :=
  (scan_worlds ⟨[], some fixtureMeta, []⟩ fixtureState (fun _ => "")).1

/-- Save directory with two worlds whose ids overlap: every file of
world `w_info` is also matched by world `w`'s globs. -/
def overlapSave : FS :=
  [("w-index", .doc [("time", .vInt 0), ("deleted", .vBool false), ("latest", .vInt 2)]),
   ("w-data", .blob "T"),
   ("w_info-index", .doc [("time", .vInt 0), ("deleted", .vBool false), ("latest", .vInt 1)]),
   ("w_info-data", .blob "A")]

/-- On-disk state for the overlapping-id scenario. -/
def overlapState : DiskState :=
  ⟨overlapSave, []⟩

/-- Manager produced by an actual scan of the overlapping-id state. -/
def overlapMgr : Manager :=
  (scan_worlds ⟨[], none, []⟩ overlapState (fun _ => "")).1

/-- Test-fixture variant whose source index carries an extra `name`
key. -/
def sneakySave : FS :=
  [("enshrouded_user.json", .meta (some fixtureMeta)),
   ("world1-index", .doc [("id", .vStr "world1"), ("time", .vInt 0),
      ("deleted", .vBool false), ("latest", .vInt 1), ("name", .vStr "Sneaky")]),
   ("world1-data", .blob "source"),
   ("world2-index", .doc [("id", .vStr "world2"), ("time", .vInt 0),
      ("deleted", .vBool false), ("latest", .vInt 2)]),
   ("world2-data", .blob "target")]

/-- On-disk state for the sneaky-name scenario. -/
def sneakyState : DiskState :=
  ⟨sneakySave, []⟩

/-- Manager produced by an actual scan of the sneaky-name state. -/
def sneakyMgr : Manager :=
  (scan_worlds ⟨[], some fixtureMeta, []⟩ sneakyState (fun _ => "")).1

/-- The spec's reading of the copy-phase name derivation: replace only
the `sourceId` prefix occurrence of the file name.  Modelled from the
spec's words for comparison against the code's `new_name`. -/
def spec_new_name (source_id target_id n : String) : String :=
  if listIsPre source_id.toList n.toList then
    target_id ++ ⟨n.toList.drop source_id.length⟩
  else n

/-- Save directory whose only world has an unparseable index file. -/
def garbageSave : FS :=
  [("enshrouded_user.json", .meta (some [[("id", .vStr "w"), ("name", .vStr "W")]])),
   ("w-index", .blob "garbage")]

theorem aget_aset_self {α : Type} (l : List (String × α)) (k : String) (v : α) :
    aget (aset l k v) k = some v := by
  induction l with
  | nil => simp [aget, aset]
  | cons p rest ih =>
    by_cases h : p.1 = k
    · simp [aget, aset, h]
    · simp [aget, aset, h, ih]

theorem aget_aset_ne {α : Type} (l : List (String × α)) (k k' : String) (v : α)
    (h : k' ≠ k) : aget (aset l k v) k' = aget l k' := by
  induction l with
  | nil => simp [aget, aset, Ne.symm h]
  | cons p rest ih =>
    by_cases hp : p.1 = k
    · simp [aget, aset, hp, Ne.symm h]
    · by_cases hp' : p.1 = k'
      · simp [aget, aset, hp, hp', h]
      · simp [aget, aset, hp, hp', ih]

theorem aget_adel_self {α : Type} (l : List (String × α)) (k : String) :
    aget (adel l k) k = none := by
  induction l with
  | nil => simp [aget, adel]
  | cons p rest ih =>
    by_cases h : p.1 = k
    · simpa [adel, h] using ih
    · simpa [adel, h, aget] using ih

theorem aget_adel_ne {α : Type} (l : List (String × α)) (k k' : String)
    (h : k' ≠ k) : aget (adel l k) k' = aget l k' := by
  induction l with
  | nil => simp [aget, adel]
  | cons p rest ih =>
    by_cases hp : p.1 = k
    · simpa [adel, aget, hp, Ne.symm h] using ih
    · by_cases hp' : p.1 = k'
      · simp [adel, hp, aget, hp', h]
      · simp [adel, hp, aget, hp', ih]

theorem aget_eq_none_iff {α : Type} (l : List (String × α)) (k : String) :
    aget l k = none ↔ k ∉ l.map Prod.fst := by
  induction l with
  | nil => simp [aget]
  | cons p rest ih =>
    by_cases h : p.1 = k
    · simp [aget, h]
    · simp [aget, h, ih, Ne.symm h]

theorem aget_of_mem_nodup {α : Type} {l : List (String × α)} {k : String} {v : α}
    (hnd : (l.map Prod.fst).Nodup) (hm : (k, v) ∈ l) : aget l k = some v := by
  induction l with
  | nil => cases hm
  | cons p rest ih =>
    rcases List.mem_cons.mp hm with hm1 | hm1
    · rw [← hm1]
      simp [aget]
    · have hk : k ∈ rest.map Prod.fst := List.mem_map.mpr ⟨(k, v), hm1, rfl⟩
      have hnd' : p.1 ∉ rest.map Prod.fst ∧ (rest.map Prod.fst).Nodup := by
        rw [List.map_cons, List.nodup_cons] at hnd
        exact hnd
      have hne : p.1 ≠ k := by
        intro h
        exact hnd'.1 (h ▸ hk)
      simp only [aget, if_neg hne]
      exact ih hnd'.2 hm1

theorem adel_of_not_mem {α : Type} {l : List (String × α)} {k : String}
    (h : k ∉ l.map Prod.fst) : adel l k = l := by
  induction l with
  | nil => rfl
  | cons p rest ih =>
    simp only [List.map_cons, List.mem_cons, not_or] at h
    rw [adel, if_neg (fun hc => h.1 hc.symm), ih h.2]

theorem keys_aset_subset {α : Type} (l : List (String × α)) (k : String) (v : α) :
    ∀ k' ∈ (aset l k v).map Prod.fst, k' ∈ l.map Prod.fst ∨ k' = k := by
  induction l with
  | nil =>
    intro k' hk'
    simp [aset] at hk'
    exact Or.inr hk'
  | cons p rest ih =>
    intro k' hk'
    by_cases h : p.1 = k
    · simp [aset, h] at hk'
      rcases hk' with hk' | hk'
      · exact Or.inr hk'
      · exact Or.inl (by simp [hk'])
    · simp [aset, h] at hk'
      rcases hk' with hk' | hk'
      · exact Or.inl (by simp [hk'])
      · rcases ih k' (List.mem_map.mpr (by simpa using hk')) with h' | h'
        · exact Or.inl (by simp; right; simpa using h')
        · exact Or.inr h'

theorem keys_aset_nodup {α : Type} (l : List (String × α)) (k : String) (v : α)
    (hnd : (l.map Prod.fst).Nodup) : ((aset l k v).map Prod.fst).Nodup := by
  induction l with
  | nil => simp [aset]
  | cons p rest ih =>
    rw [List.map_cons, List.nodup_cons] at hnd
    by_cases h : p.1 = k
    · simpa [aset, h] using hnd
    · rw [aset, if_neg h, List.map_cons, List.nodup_cons]
      refine ⟨?_, ih hnd.2⟩
      intro hc
      rcases keys_aset_subset rest k v p.1 hc with h' | h'
      · exact hnd.1 h'
      · exact h h'

theorem listIsPre_cancel (l p q : List Char) :
    listIsPre (l ++ p) (l ++ q) = listIsPre p q := by
  induction l with
  | nil => rfl
  | cons c cs ih => simp [listIsPre, ih]

theorem listIsPre_append_self (l t : List Char) : listIsPre l (l ++ t) = true := by
  induction l with
  | nil => rfl
  | cons c cs ih => simp [listIsPre, ih]

theorem listIsPre_length {p l : List Char} (h : listIsPre p l = true) :
    p.length ≤ l.length := by
  induction p generalizing l with
  | nil => simp
  | cons a as ih =>
    cases l with
    | nil => simp [listIsPre] at h
    | cons b bs =>
      simp only [listIsPre, Bool.and_eq_true] at h
      simpa [List.length_cons] using Nat.succ_le_succ (ih h.2)

theorem listIsPre_mem {p l : List Char} {c : Char} (h : listIsPre p l = true)
    (hc : c ∈ p) : c ∈ l := by
  induction p generalizing l with
  | nil => cases hc
  | cons a as ih =>
    cases l with
    | nil => simp [listIsPre] at h
    | cons b bs =>
      simp only [listIsPre, Bool.and_eq_true, beq_iff_eq] at h
      rcases List.mem_cons.mp hc with h1 | h1
      · exact List.mem_cons.mpr (Or.inl (h1.trans h.1))
      · exact List.mem_cons.mpr (Or.inr (ih h.2 h1))




theorem pyRepAux_no_occur (old new : List Char) :
    ∀ (f : Nat) (l : List Char), l.length ≤ f → hasOccurB old l = false →
      pyRepAux old new f l = l := by
  intro f
  induction f with
  | zero =>
    intro l hl _
    cases l with
    | nil => rfl
    | cons c rest => simp at hl
  | succ f ih =>
    intro l hl hocc
    cases l with
    | nil => rfl
    | cons c rest =>
      simp only [hasOccurB, Bool.or_eq_false_iff] at hocc
      rw [pyRepAux, if_neg (by simp [hocc.1])]
      rw [ih rest (by simpa using Nat.le_of_succ_le_succ hl) hocc.2]

theorem pyRepAux_head_match (o : Char) (os new rest : List Char) :
    ∀ (f : Nat), rest.length + os.length ≤ f →
      pyRepAux (o :: os) new (f + 1) ((o :: os) ++ rest) =
        new ++ pyRepAux (o :: os) new f rest := by
  intro f hf
  have hpre : listIsPre (o :: os) ((o :: os) ++ rest) = true :=
    listIsPre_append_self _ _
  rw [List.cons_append, pyRepAux, if_pos (by simpa using hpre)]
  have hdrop : (os ++ rest).drop ((o :: os).length - 1) = rest := by
    simp [List.drop_left]
  rw [hdrop]

theorem moveStep_fst (p : FS × FS) (n : String) :
    (moveStep p n).1 = adel p.1 n := by
  unfold moveStep
  cases h : aget p.1 n with
  | none =>
    rw [adel_of_not_mem ((aget_eq_none_iff _ _).mp h)]
  | some c => rfl

theorem moveAll_fst_aget (names : List String) (p : FS × FS) (n : String) :
    aget (moveAll names p).1 n = if n ∈ names then none else aget p.1 n := by
  induction names generalizing p with
  | nil => simp [moveAll]
  | cons n0 rest ih =>
    rw [moveAll, List.foldl_cons]
    by_cases hn : n = n0
    · subst hn
      by_cases hr : n ∈ rest
      · simp [moveAll] at ih
        simp [ih, hr]
      · simp [moveAll] at ih
        simp [ih, hr, moveStep_fst, aget_adel_self]
    · simp [moveAll] at ih
      simp [ih, hn, moveStep_fst, aget_adel_ne _ _ _ hn]

theorem moveAll_snd_other (names : List String) (p : FS × FS) (n : String)
    (h : n ∉ names) : aget (moveAll names p).2 n = aget p.2 n := by
  induction names generalizing p with
  | nil => rfl
  | cons n0 rest ih =>
    simp only [List.mem_cons, not_or] at h
    rw [moveAll, List.foldl_cons]
    have step : aget (moveStep p n0).2 n = aget p.2 n := by
      unfold moveStep
      cases hg : aget p.1 n0 with
      | none => rfl
      | some c => exact aget_aset_ne _ _ _ _ h.1
    rw [show List.foldl moveStep (moveStep p n0) rest = moveAll rest (moveStep p n0) from rfl,
      ih _ h.2, step]

theorem moveAll_snd_aget (names : List String) (p : FS × FS) (n : String) (c : Content)
    (hnd : names.Nodup) (hm : n ∈ names) (hp : aget p.1 n = some c) :
    aget (moveAll names p).2 n = some c := by
  induction names generalizing p with
  | nil => cases hm
  | cons n0 rest ih =>
    rw [List.nodup_cons] at hnd
    rw [moveAll, List.foldl_cons,
      show List.foldl moveStep (moveStep p n0) rest = moveAll rest (moveStep p n0) from rfl]
    rcases List.mem_cons.mp hm with he | hr
    · subst he
      rw [moveAll_snd_other _ _ _ hnd.1]
      unfold moveStep
      rw [hp]
      exact aget_aset_self _ _ _
    · have hne : n ≠ n0 := fun hc => hnd.1 (hc ▸ hr)
      have hp' : aget (moveStep p n0).1 n = some c := by
        rw [moveStep_fst, aget_adel_ne _ _ _ hne, hp]
      exact ih _ hnd.2 hr hp'

theorem moveAll_fst_keys_nodup (names : List String) (p : FS × FS)
    (hnd : (p.1.map Prod.fst).Nodup) :
    ((moveAll names p).1.map Prod.fst).Nodup := by
  induction names generalizing p with
  | nil => exact hnd
  | cons n0 rest ih =>
    rw [moveAll, List.foldl_cons,
      show List.foldl moveStep (moveStep p n0) rest = moveAll rest (moveStep p n0) from rfl]
    refine ih _ ?_
    rw [moveStep_fst]
    have hsub : (adel p.1 n0).map Prod.fst |>.Sublist (p.1.map Prod.fst) := by
      refine List.Sublist.map Prod.fst ?_
      induction p.1 with
      | nil => simp [adel]
      | cons q rest2 ih2 =>
        by_cases hq : q.1 = n0
        · rw [adel, if_pos hq]
          exact ih2.cons q
        · rw [adel, if_neg hq]
          exact ih2.cons₂ q
    exact hsub.nodup hnd

theorem copyAll_none (sId tId : String) (names : List String) (save : FS) (i : Nat) :
    copyAll sId tId names save none i = .ok (copyList sId tId names save) := by
  induction names generalizing save i with
  | nil => rfl
  | cons n rest ih =>
    rw [copyAll, if_neg (by simp), ih]
    rfl

theorem copyList_nonimg (sId tId : String) (names : List String) (save : FS)
    (q : String) (h : ∀ n ∈ names, new_name sId tId n ≠ q) :
    aget (copyList sId tId names save) q = aget save q := by
  induction names generalizing save with
  | nil => rfl
  | cons n0 rest ih =>
    rw [copyList, List.foldl_cons,
      show List.foldl _ (copyStep save n0 (new_name sId tId n0)) rest
        = copyList sId tId rest (copyStep save n0 (new_name sId tId n0)) from rfl,
      ih _ (fun n hn => h n (List.mem_cons.mpr (Or.inr hn)))]
    unfold copyStep
    cases hg : aget save n0 with
    | none => rfl
    | some c => exact aget_aset_ne _ _ _ _ (h n0 (List.mem_cons.mpr (Or.inl rfl))).symm

theorem copyList_img (sId tId : String) (names : List String) (save : FS)
    (hnd : names.Nodup) (himg : (names.map (new_name sId tId)).Nodup)
    (hsep : ∀ a ∈ names, ∀ b ∈ names, new_name sId tId a ≠ b)
    (hpres : ∀ n ∈ names, (aget save n).isSome) :
    ∀ n ∈ names, aget (copyList sId tId names save) (new_name sId tId n) = aget save n := by
  induction names generalizing save with
  | nil => intro n hn; cases hn
  | cons n0 rest ih =>
    intro n hn
    rw [List.nodup_cons] at hnd
    rw [List.map_cons, List.nodup_cons] at himg
    have hpres0 := hpres n0 (List.mem_cons.mpr (Or.inl rfl))
    obtain ⟨c0, hc0⟩ := Option.isSome_iff_exists.mp hpres0
    have hstep : copyStep save n0 (new_name sId tId n0)
        = aset save (new_name sId tId n0) c0 := by
      unfold copyStep
      rw [hc0]
    rw [copyList, List.foldl_cons,
      show List.foldl _ (copyStep save n0 (new_name sId tId n0)) rest
        = copyList sId tId rest (copyStep save n0 (new_name sId tId n0)) from rfl]
    rcases List.mem_cons.mp hn with he | hr
    · subst he
      rw [copyList_nonimg _ _ _ _ _ (fun m hm hc => himg.1 (by
        rw [← hc]
        exact List.mem_map.mpr ⟨m, hm, rfl⟩))]
      rw [hstep, aget_aset_self, hc0]
    · have hne_img : new_name sId tId n0 ≠ n :=
        hsep n0 (List.mem_cons.mpr (Or.inl rfl)) n hn
      have hget : aget (copyStep save n0 (new_name sId tId n0)) n = aget save n := by
        rw [hstep]
        exact aget_aset_ne _ _ _ _ (Ne.symm hne_img)
      rw [ih _ hnd.2 himg.2
        (fun a ha b hb => hsep a (List.mem_cons.mpr (Or.inr ha)) b (List.mem_cons.mpr (Or.inr hb)))
        (fun m hm => by
          have hnm : new_name sId tId n0 ≠ m :=
            hsep n0 (List.mem_cons.mpr (Or.inl rfl)) m (List.mem_cons.mpr (Or.inr hm))
          rw [hstep, aget_aset_ne _ _ _ _ (Ne.symm hnm)]
          exact hpres m (List.mem_cons.mpr (Or.inr hm)))
        n hr, hget]

theorem overlayIndex_excl (base srcd : Doc) (k : String) (hk : isExcl k = true) :
    aget (overlayIndex base srcd) k = aget base k := by
  induction srcd generalizing base with
  | nil => rfl
  | cons kv rest ih =>
    rw [overlayIndex, List.foldl_cons]
    by_cases h : isExcl kv.1 = true
    · rw [if_pos h]
      exact ih base
    · rw [if_neg h]
      have hne : k ≠ kv.1 := fun hc => h (hc ▸ hk)
      rw [show List.foldl _ (aset base kv.1 kv.2) rest = overlayIndex (aset base kv.1 kv.2) rest from rfl,
        ih, aget_aset_ne _ _ _ _ hne]

theorem overlayIndex_not_key (base srcd : Doc) (k : String)
    (hk : k ∉ srcd.map Prod.fst) :
    aget (overlayIndex base srcd) k = aget base k := by
  induction srcd generalizing base with
  | nil => rfl
  | cons kv rest ih =>
    simp only [List.map_cons, List.mem_cons, not_or] at hk
    rw [overlayIndex, List.foldl_cons]
    by_cases h : isExcl kv.1 = true
    · rw [if_pos h]
      exact ih base hk.2
    · rw [if_neg h,
        show List.foldl _ (aset base kv.1 kv.2) rest = overlayIndex (aset base kv.1 kv.2) rest from rfl,
        ih _ hk.2, aget_aset_ne _ _ _ _ hk.1]

theorem overlayIndex_key (base srcd : Doc) (k : String) (v : Val)
    (hnd : (srcd.map Prod.fst).Nodup) (hk : isExcl k = false)
    (hv : aget srcd k = some v) :
    aget (overlayIndex base srcd) k = some v := by
  induction srcd generalizing base with
  | nil => simp [aget] at hv
  | cons kv rest ih =>
    rw [List.map_cons, List.nodup_cons] at hnd
    rw [overlayIndex, List.foldl_cons]
    by_cases h : kv.1 = k
    · have hvv : kv.2 = v := by
        rw [aget, if_pos h] at hv
        exact Option.some.inj hv
      rw [if_neg (by rw [h, hk]; simp),
        show List.foldl _ (aset base kv.1 kv.2) rest = overlayIndex (aset base kv.1 kv.2) rest from rfl,
        overlayIndex_not_key _ _ _ (h ▸ hnd.1), h, hvv, aget_aset_self]
    · rw [aget, if_neg h] at hv
      by_cases hex : isExcl kv.1 = true
      · rw [if_pos hex]
        exact ih base hnd.2 hv
      · rw [if_neg hex,
          show List.foldl _ (aset base kv.1 kv.2) rest = overlayIndex (aset base kv.1 kv.2) rest from rfl,
          ih _ hnd.2 hv]

theorem patchIndexDoc_time (base srcIdx : Doc) (now : Int) :
    aget (patchIndexDoc base srcIdx now) "time" = some (.vInt now) := by
  rw [patchIndexDoc, overlayIndex_excl _ _ _ (by rfl),
    aget_aset_ne _ _ _ _ (by decide), aget_aset_ne _ _ _ _ (by decide), aget_aset_self]

theorem patchIndexDoc_deleted (base srcIdx : Doc) (now : Int) :
    aget (patchIndexDoc base srcIdx now) "deleted" = some (.vBool false) := by
  rw [patchIndexDoc, overlayIndex_excl _ _ _ (by rfl),
    aget_aset_ne _ _ _ _ (by decide), aget_aset_self]

theorem patchIndexDoc_latest (base srcIdx : Doc) (now : Int)
    (hnd : (srcIdx.map Prod.fst).Nodup) :
    aget (patchIndexDoc base srcIdx now) "latest"
      = some ((aget srcIdx "latest").getD (.vInt 0)) := by
  cases hv : aget srcIdx "latest" with
  | some v =>
    rw [patchIndexDoc, overlayIndex_key _ _ _ v hnd (by rfl) hv]
    rfl
  | none =>
    rw [patchIndexDoc, overlayIndex_not_key _ _ _ ((aget_eq_none_iff _ _).mp hv),
      aget_aset_self, hv]

theorem patchIndexDoc_overlay (base srcIdx : Doc) (now : Int) (k : String) (v : Val)
    (hnd : (srcIdx.map Prod.fst).Nodup) (hk : isExcl k = false)
    (hv : aget srcIdx k = some v) :
    aget (patchIndexDoc base srcIdx now) k = some v :=
  overlayIndex_key _ _ _ _ hnd hk hv

theorem updateMetaEntry_name (srcIdx : Doc) (srcName : String) (now : Int) (w : Doc)
    (hname : "name" ∉ srcIdx.map Prod.fst) :
    aget (updateMetaEntry srcIdx srcName now w) "name"
      = some (.vStr ("Copy of " ++ srcName)) := by
  rw [updateMetaEntry, overlayIndex_not_key _ _ _ hname,
    aget_aset_ne _ _ _ _ (by decide), aget_aset_self]

theorem updateMetaEntry_lastPlayed (srcIdx : Doc) (srcName : String) (now : Int) (w : Doc)
    (hlp : "lastPlayed" ∉ srcIdx.map Prod.fst) :
    aget (updateMetaEntry srcIdx srcName now w) "lastPlayed" = some (.vInt now) := by
  rw [updateMetaEntry, overlayIndex_not_key _ _ _ hlp, aget_aset_self]

theorem updateMetaEntry_overlay (srcIdx : Doc) (srcName : String) (now : Int) (w : Doc)
    (k : String) (v : Val) (hnd : (srcIdx.map Prod.fst).Nodup) (hk : isExcl k = false)
    (hv : aget srcIdx k = some v) :
    aget (updateMetaEntry srcIdx srcName now w) k = some v :=
  overlayIndex_key _ _ _ _ hnd hk hv

theorem updateFirstMeta_ok (tId : String) (upd : Doc → Doc) (ws : List Doc)
    (hids : ∀ d ∈ ws, (aget d "id").isSome) :
    ∃ ws', updateFirstMeta tId upd ws = .ok ws' := by
  induction ws with
  | nil => exact ⟨[], rfl⟩
  | cons w rest ih =>
    have hw := hids w (List.mem_cons.mpr (Or.inl rfl))
    obtain ⟨v, hv⟩ := Option.isSome_iff_exists.mp hw
    by_cases he : v = .vStr tId
    · exact ⟨upd w :: rest, by simp only [updateFirstMeta, hv]; rw [if_pos he]⟩
    · obtain ⟨ws', hws'⟩ := ih (fun d hd => hids d (List.mem_cons.mpr (Or.inr hd)))
      exact ⟨w :: ws', by simp only [updateFirstMeta, hv]; rw [if_neg he, hws']; rfl⟩

theorem updateFirstMeta_split (tId : String) (upd : Doc → Doc)
    (pre : List Doc) (d : Doc) (post : List Doc)
    (hpre_ids : ∀ d' ∈ pre, (aget d' "id").isSome)
    (hpre : ∀ d' ∈ pre, aget d' "id" ≠ some (.vStr tId))
    (hd : aget d "id" = some (.vStr tId)) :
    updateFirstMeta tId upd (pre ++ d :: post) = .ok (pre ++ upd d :: post) := by
  induction pre with
  | nil =>
    simp [updateFirstMeta, hd]
  | cons w rest ih =>
    have hw := hpre_ids w (List.mem_cons.mpr (Or.inl rfl))
    obtain ⟨v, hv⟩ := Option.isSome_iff_exists.mp hw
    have hne : v ≠ .vStr tId := by
      intro hc
      exact hpre w (List.mem_cons.mpr (Or.inl rfl)) (by rw [hv, hc])
    have ih' := ih (fun d' hd' => hpre_ids d' (List.mem_cons.mpr (Or.inr hd')))
      (fun d' hd' => hpre d' (List.mem_cons.mpr (Or.inr hd')))
    simp only [List.cons_append, updateFirstMeta, hv, List.append_eq]
    rw [if_neg hne, ih']
    rfl

theorem mem_filesOf {id n : String} {fs : FS} :
    n ∈ filesOf id fs ↔ matchesGlob id n = true ∧ n ∈ fs.map Prod.fst := by
  rw [filesOf, List.mem_insertionSort, List.mem_filter]
  exact ⟨fun h => ⟨h.2, h.1⟩, fun h => ⟨h.2, h.1⟩⟩

theorem filesOf_nodup {id : String} {fs : FS}
    (hnd : (fs.map Prod.fst).Nodup) : (filesOf id fs).Nodup := by
  rw [filesOf]
  exact ((List.perm_insertionSort _ _).nodup_iff).mpr (hnd.filter _)

theorem filesOf_isSome {id n : String} {fs : FS} (h : n ∈ filesOf id fs) :
    (aget fs n).isSome := by
  have hk := (mem_filesOf.mp h).2
  cases hg : aget fs n with
  | some c => rfl
  | none => exact absurd hk ((aget_eq_none_iff _ _).mp hg)

theorem matchesGlob_index_self (id : String) :
    matchesGlob id (id ++ "-index") = true := by
  rw [matchesGlob]
  refine Bool.or_eq_true_iff.mpr (Or.inl ?_)
  show listIsPre (id ++ "-").data (id ++ "-index").data = true
  rw [String.data_append, String.data_append,
    show ("-index" : String).data = ("-" : String).data ++ "index".data from rfl,
    ← List.append_assoc, listIsPre_append_self]

theorem mem_keys_iff_aget {α : Type} (l : List (String × α)) (k : String) :
    k ∈ l.map Prod.fst ↔ aget l k ≠ none := by
  constructor
  · intro h hc
    exact (aget_eq_none_iff l k).mp hc h
  · intro h
    by_contra hc
    exact h ((aget_eq_none_iff l k).mpr hc)

theorem dupCore_eq (m : Manager) (st : DiskState) (sId tId : String)
    (now : Int) (ts : String) (failAt : Option Nat) (src tgt : WorldInfo)
    (hs : mlookup m.worlds sId = some src) (ht : mlookup m.worlds tId = some tgt) :
    duplicate_world m st sId tId now ts failAt
      = dupCore src tgt m st sId tId now ts failAt := by
  simp only [duplicate_world, hs, ht]

theorem dupCore_success_spec (src tgt : WorldInfo) (m : Manager) (st : DiskState)
    (sId tId : String) (now : Int) (ts : String)
    (hsid : src.id = sId) (htid : tgt.id = tId)
    (hnd : (st.save.map Prod.fst).Nodup)
    (hndsrc : (src.index_data.map Prod.fst).Nodup)
    (hdisj : ∀ n ∈ filesOf sId st.save, n ∉ filesOf tId st.save)
    (hinj : ((filesOf sId st.save).map (new_name sId tId)).Nodup)
    (hsep : ∀ a ∈ filesOf sId st.save, ∀ b ∈ filesOf sId st.save, new_name sId tId a ≠ b)
    (hsidx : (aget st.save (sId ++ "-index")).isSome)
    (hpidx : new_name sId tId (sId ++ "-index") = tId ++ "-index")
    (hmetaimg : ∀ n ∈ filesOf sId st.save, new_name sId tId n ≠ "enshrouded_user.json")
    (hmok : ∀ d ∈ m.metadata.getD [], (aget d "id").isSome) :
    ∃ m' saveF,
      dupCore src tgt m st sId tId now ts none
        = (some (tId ++ "_backup_" ++ ts), m',
            ⟨saveF, aset st.backups (tId ++ "_backup_" ++ ts)
              (moveAll (filesOf tId st.save)
                (st.save, getBackup st.backups (tId ++ "_backup_" ++ ts))).2⟩) ∧
      (∀ n ∈ filesOf tId st.save,
        aget (moveAll (filesOf tId st.save)
          (st.save, getBackup st.backups (tId ++ "_backup_" ++ ts))).2 n
          = aget st.save n) ∧
      (∀ n ∈ filesOf sId st.save, new_name sId tId n ≠ tId ++ "-index" →
        aget saveF (new_name sId tId n) = aget st.save n) ∧
      (∃ dfin : Doc, aget saveF (tId ++ "-index") = some (.doc dfin) ∧
        aget dfin "time" = some (.vInt now) ∧
        aget dfin "deleted" = some (.vBool false) ∧
        aget dfin "latest" = some ((aget src.index_data "latest").getD (.vInt 0)) ∧
        (∀ k v, isExcl k = false → aget src.index_data k = some v →
          aget dfin k = some v)) := by
  have hρinj : ∀ x ∈ filesOf sId st.save, ∀ y ∈ filesOf sId st.save,
      new_name sId tId x = new_name sId tId y → x = y :=
    fun x hx y hy hxy => List.inj_on_of_nodup_map hinj hx hy hxy
  -- the moved state
  have hsave1 : ∀ n, aget (moveAll (filesOf tId st.save)
      (st.save, getBackup st.backups (tId ++ "_backup_" ++ ts))).1 n
      = if n ∈ filesOf tId st.save then none else aget st.save n :=
    fun n => moveAll_fst_aget _ _ n
  have hnd1 : (((moveAll (filesOf tId st.save)
      (st.save, getBackup st.backups (tId ++ "_backup_" ++ ts))).1).map Prod.fst).Nodup :=
    moveAll_fst_keys_nodup _ _ hnd
  -- the source file list recomputed after the moves has the same members
  have hmem1 : ∀ n, n ∈ filesOf sId (moveAll (filesOf tId st.save)
      (st.save, getBackup st.backups (tId ++ "_backup_" ++ ts))).1
      ↔ n ∈ filesOf sId st.save := by
    intro n
    rw [mem_filesOf, mem_filesOf, mem_keys_iff_aget, mem_keys_iff_aget, hsave1 n]
    constructor
    · rintro ⟨hg, hne⟩
      by_cases ht' : n ∈ filesOf tId st.save
      · rw [if_pos ht'] at hne
        exact absurd rfl hne
      · rw [if_neg ht'] at hne
        exact ⟨hg, hne⟩
    · rintro ⟨hg, hne⟩
      have hmem : n ∈ filesOf sId st.save := by
        rw [mem_filesOf, mem_keys_iff_aget]
        exact ⟨hg, hne⟩
      rw [if_neg (hdisj n hmem)]
      exact ⟨hg, hne⟩
  have hs1nd : (filesOf sId (moveAll (filesOf tId st.save)
      (st.save, getBackup st.backups (tId ++ "_backup_" ++ ts))).1).Nodup :=
    filesOf_nodup hnd1
  have himg1 : ((filesOf sId (moveAll (filesOf tId st.save)
      (st.save, getBackup st.backups (tId ++ "_backup_" ++ ts))).1).map
        (new_name sId tId)).Nodup :=
    List.Nodup.map_on
      (fun x hx y hy => hρinj x ((hmem1 x).mp hx) y ((hmem1 y).mp hy)) hs1nd
  have hsep1 : ∀ a ∈ filesOf sId (moveAll (filesOf tId st.save)
      (st.save, getBackup st.backups (tId ++ "_backup_" ++ ts))).1,
      ∀ b ∈ filesOf sId (moveAll (filesOf tId st.save)
        (st.save, getBackup st.backups (tId ++ "_backup_" ++ ts))).1,
      new_name sId tId a ≠ b :=
    fun a ha b hb => hsep a ((hmem1 a).mp ha) b ((hmem1 b).mp hb)
  have hpres1 : ∀ n ∈ filesOf sId (moveAll (filesOf tId st.save)
      (st.save, getBackup st.backups (tId ++ "_backup_" ++ ts))).1,
      (aget (moveAll (filesOf tId st.save)
        (st.save, getBackup st.backups (tId ++ "_backup_" ++ ts))).1 n).isSome :=
    fun n hn => filesOf_isSome hn
  -- facts about the copied state
  have hF1 := copyList_img sId tId
    (filesOf sId (moveAll (filesOf tId st.save)
      (st.save, getBackup st.backups (tId ++ "_backup_" ++ ts))).1)
    (moveAll (filesOf tId st.save)
      (st.save, getBackup st.backups (tId ++ "_backup_" ++ ts))).1
    hs1nd himg1 hsep1 hpres1
  have hF2 := copyList_nonimg sId tId
    (filesOf sId (moveAll (filesOf tId st.save)
      (st.save, getBackup st.backups (tId ++ "_backup_" ++ ts))).1)
    (moveAll (filesOf tId st.save)
      (st.save, getBackup st.backups (tId ++ "_backup_" ++ ts))).1
  -- the source index file and its image
  have hidxmem : sId ++ "-index" ∈ filesOf sId st.save := by
    rw [mem_filesOf, mem_keys_iff_aget]
    exact ⟨matchesGlob_index_self sId, Option.isSome_iff_ne_none.mp hsidx⟩
  have hidx1 : sId ++ "-index" ∈ filesOf sId (moveAll (filesOf tId st.save)
      (st.save, getBackup st.backups (tId ++ "_backup_" ++ ts))).1 :=
    (hmem1 _).mpr hidxmem
  have hlive : ∀ n ∈ filesOf sId st.save,
      aget (copyList sId tId
        (filesOf sId (moveAll (filesOf tId st.save)
          (st.save, getBackup st.backups (tId ++ "_backup_" ++ ts))).1)
        (moveAll (filesOf tId st.save)
          (st.save, getBackup st.backups (tId ++ "_backup_" ++ ts))).1)
        (new_name sId tId n) = aget st.save n := by
    intro n hn
    rw [hF1 n ((hmem1 n).mpr hn), hsave1 n, if_neg (hdisj n hn)]
  have hsave2idx : aget (copyList sId tId
      (filesOf sId (moveAll (filesOf tId st.save)
        (st.save, getBackup st.backups (tId ++ "_backup_" ++ ts))).1)
      (moveAll (filesOf tId st.save)
        (st.save, getBackup st.backups (tId ++ "_backup_" ++ ts))).1)
      (tId ++ "-index") = aget st.save (sId ++ "-index") := by
    rw [← hpidx]
    exact hlive _ hidxmem
  obtain ⟨cstar, hcstar⟩ := Option.isSome_iff_exists.mp hsidx
  have hsave2idx' : aget (copyList sId tId
      (filesOf sId (moveAll (filesOf tId st.save)
        (st.save, getBackup st.backups (tId ++ "_backup_" ++ ts))).1)
      (moveAll (filesOf tId st.save)
        (st.save, getBackup st.backups (tId ++ "_backup_" ++ ts))).1)
      (tId ++ "-index") = some cstar := by
    rw [hsave2idx, hcstar]
  -- the patched state
  have hsave3 : patchIndexFile tId (copyList sId tId
      (filesOf sId (moveAll (filesOf tId st.save)
        (st.save, getBackup st.backups (tId ++ "_backup_" ++ ts))).1)
      (moveAll (filesOf tId st.save)
        (st.save, getBackup st.backups (tId ++ "_backup_" ++ ts))).1)
      src.index_data now
      = aset (copyList sId tId
          (filesOf sId (moveAll (filesOf tId st.save)
            (st.save, getBackup st.backups (tId ++ "_backup_" ++ ts))).1)
          (moveAll (filesOf tId st.save)
            (st.save, getBackup st.backups (tId ++ "_backup_" ++ ts))).1)
          (tId ++ "-index")
          (.doc (patchIndexDoc (parseDoc cstar) src.index_data now)) := by
    rw [patchIndexFile, hsave2idx']
  have hidxne : tId ++ "-index" ≠ "enshrouded_user.json" := by
    rw [← hpidx]
    exact hmetaimg _ hidxmem
  -- the common conclusions, stated for any saveF which is save3 possibly
  -- followed by a metadata-file write
  have hconc : ∀ saveF : FS,
      (saveF = patchIndexFile tId (copyList sId tId
          (filesOf sId (moveAll (filesOf tId st.save)
            (st.save, getBackup st.backups (tId ++ "_backup_" ++ ts))).1)
          (moveAll (filesOf tId st.save)
            (st.save, getBackup st.backups (tId ++ "_backup_" ++ ts))).1)
          src.index_data now
        ∨ ∃ mc : Content, saveF = aset (patchIndexFile tId (copyList sId tId
          (filesOf sId (moveAll (filesOf tId st.save)
            (st.save, getBackup st.backups (tId ++ "_backup_" ++ ts))).1)
          (moveAll (filesOf tId st.save)
            (st.save, getBackup st.backups (tId ++ "_backup_" ++ ts))).1)
          src.index_data now) "enshrouded_user.json" mc) →
      (∀ n ∈ filesOf sId st.save, new_name sId tId n ≠ tId ++ "-index" →
        aget saveF (new_name sId tId n) = aget st.save n) ∧
      (∃ dfin : Doc, aget saveF (tId ++ "-index") = some (.doc dfin) ∧
        aget dfin "time" = some (.vInt now) ∧
        aget dfin "deleted" = some (.vBool false) ∧
        aget dfin "latest" = some ((aget src.index_data "latest").getD (.vInt 0)) ∧
        (∀ k v, isExcl k = false → aget src.index_data k = some v →
          aget dfin k = some v)) := by
    intro saveF hsaveF
    have hstep : ∀ q : String, q ≠ "enshrouded_user.json" →
        aget saveF q = aget (patchIndexFile tId (copyList sId tId
          (filesOf sId (moveAll (filesOf tId st.save)
            (st.save, getBackup st.backups (tId ++ "_backup_" ++ ts))).1)
          (moveAll (filesOf tId st.save)
            (st.save, getBackup st.backups (tId ++ "_backup_" ++ ts))).1)
          src.index_data now) q := by
      intro q hq
      rcases hsaveF with h | ⟨mc, h⟩
      · rw [h]
      · rw [h, aget_aset_ne _ _ _ _ hq]
    constructor
    · intro n hn hni
      rw [hstep _ (hmetaimg n hn), hsave3, aget_aset_ne _ _ _ _ hni]
      exact hlive n hn
    · refine ⟨patchIndexDoc (parseDoc cstar) src.index_data now, ?_,
        patchIndexDoc_time _ _ _, patchIndexDoc_deleted _ _ _,
        patchIndexDoc_latest _ _ _ hndsrc,
        fun k v hk hv => patchIndexDoc_overlay _ _ _ _ _ hndsrc hk hv⟩
      rw [hstep _ hidxne, hsave3, aget_aset_self]
  -- backup contents
  have hback : ∀ n ∈ filesOf tId st.save,
      aget (moveAll (filesOf tId st.save)
        (st.save, getBackup st.backups (tId ++ "_backup_" ++ ts))).2 n
        = aget st.save n := by
    intro n hn
    obtain ⟨c, hc⟩ := Option.isSome_iff_exists.mp (filesOf_isSome hn)
    rw [hc]
    exact moveAll_snd_aget _ _ n c (filesOf_nodup hnd) hn hc
  -- now run the pipeline
  cases hmeta : m.metadata with
  | none =>
    refine ⟨m, _, ?_, hback, hconc _ (Or.inl rfl)⟩
    simp only [dupCore, htid, hsid, copyAll_none, hmeta]
  | some ws =>
    obtain ⟨ws', hws'⟩ := updateFirstMeta_ok tId
      (updateMetaEntry src.index_data src.name now) ws
      (by
        intro d hd
        exact hmok d (by rw [hmeta]; exact hd))
    refine ⟨{ m with metadata := some ws' }, _, ?_, hback,
      hconc _ (Or.inr ⟨.meta (some ws'), rfl⟩)⟩
    simp only [dupCore, htid, hsid, copyAll_none, hmeta, hws']

/-- C2 (amended): for distinct valid cached worlds whose live file sets
are disjoint and whose renaming is collision-free, a successful
`duplicate_world` call returns the backup directory path, the backup
holds the target's pre-call files under their original names and
contents, every live target-side file is a copy of the corresponding
source file, and the live target index has `time = now`,
`deleted = false`, `latest` from the source index (default 0), and
every other source-index key except `id`, `time`, `deleted` overlaid
onto it. -/
theorem claim_C2_success_postconditions (src tgt : WorldInfo) (m : Manager)
    (st : DiskState) (sId tId : String) (now : Int) (ts : String)
    (hs : mlookup m.worlds sId = some src) (ht : mlookup m.worlds tId = some tgt)
    (hsid : src.id = sId) (htid : tgt.id = tId)
    (hnd : (st.save.map Prod.fst).Nodup)
    (hndsrc : (src.index_data.map Prod.fst).Nodup)
    (hdisj : ∀ n ∈ filesOf sId st.save, n ∉ filesOf tId st.save)
    (hinj : ((filesOf sId st.save).map (new_name sId tId)).Nodup)
    (hsep : ∀ a ∈ filesOf sId st.save, ∀ b ∈ filesOf sId st.save,
      new_name sId tId a ≠ b)
    (hsidx : (aget st.save (sId ++ "-index")).isSome)
    (hpidx : new_name sId tId (sId ++ "-index") = tId ++ "-index")
    (hmetaimg : ∀ n ∈ filesOf sId st.save,
      new_name sId tId n ≠ "enshrouded_user.json")
    (hmok : ∀ d ∈ m.metadata.getD [], (aget d "id").isSome) :
    (duplicate_world m st sId tId now ts none).1
        = some (tId ++ "_backup_" ++ ts) ∧
    (∀ n ∈ filesOf tId st.save,
      aget (getBackup (duplicate_world m st sId tId now ts none).2.2.backups
        (tId ++ "_backup_" ++ ts)) n = aget st.save n) ∧
    (∀ n ∈ filesOf sId st.save, new_name sId tId n ≠ tId ++ "-index" →
      aget (duplicate_world m st sId tId now ts none).2.2.save
        (new_name sId tId n) = aget st.save n) ∧
    (∃ dfin : Doc,
      aget (duplicate_world m st sId tId now ts none).2.2.save
        (tId ++ "-index") = some (.doc dfin) ∧
      aget dfin "time" = some (.vInt now) ∧
      aget dfin "deleted" = some (.vBool false) ∧
      aget dfin "latest" = some ((aget src.index_data "latest").getD (.vInt 0)) ∧
      (∀ k v, isExcl k = false → aget src.index_data k = some v →
        aget dfin k = some v)) := by
  obtain ⟨m', saveF, heq, hback, hcopy, hidx⟩ :=
    dupCore_success_spec src tgt m st sId tId now ts hsid htid hnd hndsrc
      hdisj hinj hsep hsidx hpidx hmetaimg hmok
  rw [dupCore_eq m st sId tId now ts none src tgt hs ht, heq]
  refine ⟨rfl, ?_, hcopy, hidx⟩
  intro n hn
  rw [show getBackup (aset st.backups (tId ++ "_backup_" ++ ts)
      (moveAll (filesOf tId st.save)
        (st.save, getBackup st.backups (tId ++ "_backup_" ++ ts))).2)
      (tId ++ "_backup_" ++ ts)
    = (moveAll (filesOf tId st.save)
        (st.save, getBackup st.backups (tId ++ "_backup_" ++ ts))).2 by
      rw [getBackup, aget_aset_self]
      rfl]
  exact hback n hn

/-- C2 counterexample: two distinct valid cached worlds with ids
`w_info` and `w` (both produced by `scan_worlds`), where the file set
of world `w` also captures all of `w_info`'s files.  The call
`duplicate_world("w_info", "w")` succeeds, yet afterwards the live
target files are not copies of the source files: the save directory
holds no `w`-files at all, so the claim's postcondition fails. -/
theorem claim_C2_cex :
    (mlookup overlapMgr.worlds "w_info").isSome ∧
    (mlookup overlapMgr.worlds "w").isSome ∧
    (duplicate_world overlapMgr overlapState "w_info" "w" 5 "TS" none).1
      = some "w_backup_TS" ∧
    aget (duplicate_world overlapMgr overlapState "w_info" "w" 5 "TS" none).2.2.save
      "w-data" = none ∧
    aget (duplicate_world overlapMgr overlapState "w_info" "w" 5 "TS" none).2.2.save
      "w-index" = none := by
  refine ⟨by decide, by decide, by decide, by decide, by decide⟩

/-- C2 witness: the repository's own test fixture satisfies every
hypothesis of the amended claim, and the conclusions follow. -/
theorem claim_C2_success_postconditions_witness :
    (mlookup fixtureMgr.worlds "world1").isSome ∧
    (duplicate_world fixtureMgr fixtureState "world1" "world2" 1234567890
      "20200101000000" none).1 = some "world2_backup_20200101000000" ∧
    aget (getBackup (duplicate_world fixtureMgr fixtureState "world1" "world2"
      1234567890 "20200101000000" none).2.2.backups "world2_backup_20200101000000")
      "world2-data" = some (.blob "target") ∧
    aget (duplicate_world fixtureMgr fixtureState "world1" "world2" 1234567890
      "20200101000000" none).2.2.save "world2-data" = some (.blob "source") ∧
    (∃ dfin : Doc,
      aget (duplicate_world fixtureMgr fixtureState "world1" "world2" 1234567890
        "20200101000000" none).2.2.save "world2-index" = some (.doc dfin) ∧
      aget dfin "time" = some (.vInt 1234567890) ∧
      aget dfin "deleted" = some (.vBool false) ∧
      aget dfin "latest" = some (.vInt 1)) := by
  obtain ⟨h1, h2, h3, dfin, h4, h5, h6, h7, h8⟩ :=
    claim_C2_success_postconditions
      ⟨"world1", "World One",
        [("id", .vStr "world1"), ("time", .vInt 0), ("deleted", .vBool false),
          ("latest", .vInt 1)], false, 0, 0⟩
      ⟨"world2", "World Two",
        [("id", .vStr "world2"), ("time", .vInt 0), ("deleted", .vBool false),
          ("latest", .vInt 2)], false, 0, 0⟩
      fixtureMgr fixtureState "world1" "world2" 1234567890 "20200101000000"
      (by decide) (by decide) (by decide) (by decide) (by decide) (by decide)
      (by decide) (by decide) (by decide) (by decide) (by decide) (by decide)
      (by decide)
  rw [show ("world2" ++ "_backup_" ++ "20200101000000" : String)
    = "world2_backup_20200101000000" from by decide] at h1 h2
  rw [show ("world2" ++ "-index" : String) = "world2-index" from by decide] at h4
  refine ⟨by decide, h1, ?_, ?_, ?_⟩
  · have hb := h2 "world2-data" (by decide)
    rw [hb]
    decide
  · have hc := h3 "world1-data" (by decide) (by decide)
    rw [show new_name "world1" "world2" "world1-data" = "world2-data" from by decide] at hc
    rw [hc]
    decide
  · exact ⟨dfin, h4, h5, h6, by rw [h7]; decide⟩

/-- C5: if either id does not resolve in the world cache,
`duplicate_world` fails with the `UnknownWorld` result (`None`),
performs no disk I/O, and leaves manager and disk state unchanged. -/
theorem claim_C5_unknown_id_rejection (m : Manager) (st : DiskState)
    (sId tId : String) (now : Int) (ts : String) (failAt : Option Nat)
    (h : mlookup m.worlds sId = none ∨ mlookup m.worlds tId = none) :
    duplicate_world m st sId tId now ts failAt = (none, m, st) := by
  rcases h with h | h
  · simp [duplicate_world, h]
  · cases hs : mlookup m.worlds sId <;> simp [duplicate_world, h, hs]

/-- C5 witness: a missing source id on the test fixture is rejected
with all state unchanged. -/
theorem claim_C5_unknown_id_rejection_witness :
    (mlookup fixtureMgr.worlds "missing" = none ∨
      mlookup fixtureMgr.worlds "world2" = none) ∧
    duplicate_world fixtureMgr fixtureState "missing" "world2" 1234567890
      "20200101000000" none = (none, fixtureMgr, fixtureState) :=
  ⟨Or.inl (by decide),
    claim_C5_unknown_id_rejection fixtureMgr fixtureState "missing" "world2"
      1234567890 "20200101000000" none (Or.inl (by decide))⟩

/-- C9: `duplicate_world` never propagates an exception: on every
input it returns either `none` (all internal raises are caught) or the
backup directory path. -/
theorem claim_C9_no_exception_escape (m : Manager) (st : DiskState)
    (sId tId : String) (now : Int) (ts : String) (failAt : Option Nat) :
    (duplicate_world m st sId tId now ts failAt).1 = none ∨
    (duplicate_world m st sId tId now ts failAt).1
      = some (tId ++ "_backup_" ++ ts) := by
  unfold duplicate_world
  cases hs : mlookup m.worlds sId with
  | none => exact Or.inl rfl
  | some src =>
    cases ht : mlookup m.worlds tId with
    | none => exact Or.inl rfl
    | some tgt =>
      unfold dupCore
      cases hc : copyAll sId tId
        (filesOf src.id (moveAll (filesOf tgt.id st.save)
          (st.save, getBackup st.backups (tId ++ "_backup_" ++ ts))).1)
        (moveAll (filesOf tgt.id st.save)
          (st.save, getBackup st.backups (tId ++ "_backup_" ++ ts))).1
        failAt 0 with
      | error se => exact Or.inl (by simp [hc])
      | ok s2 =>
        cases hm : m.metadata with
        | none => exact Or.inr (by simp [hc, hm])
        | some ws =>
          cases hu : updateFirstMeta tId
            (updateMetaEntry src.index_data src.name now) ws with
          | error e => exact Or.inl (by simp [hc, hm, hu])
          | ok ws' => exact Or.inr (by simp [hc, hm, hu])

/-- C10: duplicating a valid cached world onto itself is accepted and
reported as a success (the backup path is returned), yet afterwards
the save directory holds none of the world's files: the live file set
is re-evaluated after the backup moves, so the copy phase finds zero
source files, and the world survives only inside the backup
directory. -/
theorem claim_C10_self_duplication (m : Manager) (st : DiskState)
    (id : String) (now : Int) (ts : String) (w : WorldInfo)
    (hw : mlookup m.worlds id = some w) (hid : w.id = id)
    (hnd : (st.save.map Prod.fst).Nodup)
    (hmok : ∀ d ∈ m.metadata.getD [], (aget d "id").isSome)
    (hmglob : matchesGlob id "enshrouded_user.json" = false) :
    (duplicate_world m st id id now ts none).1 = some (id ++ "_backup_" ++ ts) ∧
    (∀ n, matchesGlob id n = true →
      aget (duplicate_world m st id id now ts none).2.2.save n = none) ∧
    (∀ n ∈ filesOf id st.save,
      aget (getBackup (duplicate_world m st id id now ts none).2.2.backups
        (id ++ "_backup_" ++ ts)) n = aget st.save n) := by
  rw [dupCore_eq m st id id now ts none w w hw hw]
  have hsave1 : ∀ n, aget (moveAll (filesOf id st.save)
      (st.save, getBackup st.backups (id ++ "_backup_" ++ ts))).1 n
      = if n ∈ filesOf id st.save then none else aget st.save n :=
    fun n => moveAll_fst_aget _ _ n
  have hgone : ∀ n, matchesGlob id n = true →
      aget (moveAll (filesOf id st.save)
        (st.save, getBackup st.backups (id ++ "_backup_" ++ ts))).1 n = none := by
    intro n hg
    rw [hsave1 n]
    by_cases hm : n ∈ filesOf id st.save
    · rw [if_pos hm]
    · rw [if_neg hm]
      exact (aget_eq_none_iff _ _).mpr (fun hk => hm (mem_filesOf.mpr ⟨hg, hk⟩))
  have hsf1 : filesOf id (moveAll (filesOf id st.save)
      (st.save, getBackup st.backups (id ++ "_backup_" ++ ts))).1 = [] := by
    refine List.eq_nil_iff_forall_not_mem.mpr ?_
    intro n hn
    obtain ⟨hg, hk⟩ := mem_filesOf.mp hn
    exact ((mem_keys_iff_aget _ _).mp hk) (hgone n hg)
  have hidxnone : aget (moveAll (filesOf id st.save)
      (st.save, getBackup st.backups (id ++ "_backup_" ++ ts))).1
      (id ++ "-index") = none :=
    hgone _ (matchesGlob_index_self id)
  have hback : ∀ n ∈ filesOf id st.save,
      aget (moveAll (filesOf id st.save)
        (st.save, getBackup st.backups (id ++ "_backup_" ++ ts))).2 n
        = aget st.save n := by
    intro n hn
    obtain ⟨c, hc⟩ := Option.isSome_iff_exists.mp (filesOf_isSome hn)
    rw [hc]
    exact moveAll_snd_aget _ _ n c (filesOf_nodup hnd) hn hc
  have hgb : getBackup (aset st.backups (id ++ "_backup_" ++ ts)
      (moveAll (filesOf id st.save)
        (st.save, getBackup st.backups (id ++ "_backup_" ++ ts))).2)
      (id ++ "_backup_" ++ ts)
      = (moveAll (filesOf id st.save)
        (st.save, getBackup st.backups (id ++ "_backup_" ++ ts))).2 := by
    rw [getBackup, aget_aset_self]
    rfl
  cases hmeta : m.metadata with
  | none =>
    simp only [dupCore, hid, hsf1, copyAll, patchIndexFile, hidxnone, hmeta]
    refine ⟨trivial, hgone, ?_⟩
    intro n hn
    rw [hgb]
    exact hback n hn
  | some ws =>
    obtain ⟨ws', hws'⟩ := updateFirstMeta_ok id
      (updateMetaEntry w.index_data w.name now) ws
      (fun d hd => hmok d (by rw [hmeta]; exact hd))
    simp only [dupCore, hid, hsf1, copyAll, patchIndexFile, hidxnone, hmeta, hws']
    refine ⟨trivial, ?_, ?_⟩
    · intro n hg
      have hne : n ≠ "enshrouded_user.json" := by
        intro hc
        rw [hc] at hg
        rw [hg] at hmglob
        exact absurd hmglob (by simp)
      rw [aget_aset_ne _ _ _ _ hne]
      exact hgone n hg
    · intro n hn
      rw [hgb]
      exact hback n hn

/-- C10 witness: self-duplicating `world1` on the test fixture
succeeds yet leaves no `world1` files in the save directory. -/
theorem claim_C10_self_duplication_witness :
    (mlookup fixtureMgr.worlds "world1").isSome ∧
    (duplicate_world fixtureMgr fixtureState "world1" "world1" 1234567890
      "TS" none).1 = some "world1_backup_TS" ∧
    aget (duplicate_world fixtureMgr fixtureState "world1" "world1" 1234567890
      "TS" none).2.2.save "world1-data" = none ∧
    aget (duplicate_world fixtureMgr fixtureState "world1" "world1" 1234567890
      "TS" none).2.2.save "world1-index" = none ∧
    aget (getBackup (duplicate_world fixtureMgr fixtureState "world1" "world1"
      1234567890 "TS" none).2.2.backups "world1_backup_TS") "world1-data"
      = some (.blob "source") := by
  obtain ⟨h1, h2, h3⟩ :=
    claim_C10_self_duplication fixtureMgr fixtureState "world1" 1234567890 "TS"
      ⟨"world1", "World One",
        [("id", .vStr "world1"), ("time", .vInt 0), ("deleted", .vBool false),
          ("latest", .vInt 1)], false, 0, 0⟩
      (by decide) (by decide) (by decide) (by decide) (by decide)
  rw [show ("world1" ++ "_backup_" ++ "TS" : String) = "world1_backup_TS"
    from by decide] at h1 h3
  refine ⟨by decide, h1, h2 "world1-data" (by decide),
    h2 "world1-index" (by decide), ?_⟩
  have hb := h3 "world1-data" (by decide)
  rw [hb]
  decide

/-- C3 (amended): on a successful fault-free call where the metadata
store holds an entry whose `id` equals the target id (first such
entry, earlier entries having ids that differ), that entry gets
`name = "Copy of " + source name` and `lastPlayed = now`, and then
every other source-index key except `id`, `time`, `deleted` is copied
over it — overwriting `name` (resp. `lastPlayed`) again whenever the
source index document itself contains such a key; the updated store is
written back to `enshrouded_user.json`. -/
theorem claim_C3_metadata_patch (src tgt : WorldInfo) (m : Manager)
    (st : DiskState) (sId tId : String) (now : Int) (ts : String)
    (pre : List Doc) (d : Doc) (post : List Doc)
    (hs : mlookup m.worlds sId = some src) (ht : mlookup m.worlds tId = some tgt)
    (hndsrc : (src.index_data.map Prod.fst).Nodup)
    (hmeta : m.metadata = some (pre ++ d :: post))
    (hpre_ids : ∀ d' ∈ pre, (aget d' "id").isSome)
    (hpre : ∀ d' ∈ pre, aget d' "id" ≠ some (.vStr tId))
    (hd : aget d "id" = some (.vStr tId)) :
    (duplicate_world m st sId tId now ts none).1
      = some (tId ++ "_backup_" ++ ts) ∧
    (duplicate_world m st sId tId now ts none).2.1.metadata
      = some (pre ++ updateMetaEntry src.index_data src.name now d :: post) ∧
    aget (duplicate_world m st sId tId now ts none).2.2.save
      "enshrouded_user.json"
      = some (.meta (some (pre ++ updateMetaEntry src.index_data src.name now d :: post))) ∧
    ("name" ∉ src.index_data.map Prod.fst →
      aget (updateMetaEntry src.index_data src.name now d) "name"
        = some (.vStr ("Copy of " ++ src.name))) ∧
    ("lastPlayed" ∉ src.index_data.map Prod.fst →
      aget (updateMetaEntry src.index_data src.name now d) "lastPlayed"
        = some (.vInt now)) ∧
    (∀ k v, isExcl k = false → aget src.index_data k = some v →
      aget (updateMetaEntry src.index_data src.name now d) k = some v) := by
  rw [dupCore_eq m st sId tId now ts none src tgt hs ht]
  have hsplit := updateFirstMeta_split tId
    (updateMetaEntry src.index_data src.name now) pre d post hpre_ids hpre hd
  simp only [dupCore, copyAll_none, hmeta, hsplit]
  refine ⟨trivial, trivial, aget_aset_self _ _ _, ?_, ?_, ?_⟩
  · intro hname
    exact updateMetaEntry_name _ _ _ _ hname
  · intro hlp
    exact updateMetaEntry_lastPlayed _ _ _ _ hlp
  · intro k v hk hv
    exact updateMetaEntry_overlay _ _ _ _ _ _ hndsrc hk hv

/-- C3 counterexample: the source index contains a key `name`, so the
overlay loop overwrites the just-written `"Copy of ..."` value; after
a successful call the target's metadata entry has `name = "Sneaky"`,
not `"Copy of World One"`, refuting the claim as stated. -/
theorem claim_C3_cex :
    (duplicate_world sneakyMgr sneakyState "world1" "world2" 99 "TS" none).1
      = some "world2_backup_TS" ∧
    aget (((duplicate_world sneakyMgr sneakyState "world1" "world2" 99 "TS"
      none).2.1.metadata.getD []).getD 1 []) "id" = some (.vStr "world2") ∧
    aget (((duplicate_world sneakyMgr sneakyState "world1" "world2" 99 "TS"
      none).2.1.metadata.getD []).getD 1 []) "name" = some (.vStr "Sneaky") ∧
    aget (((duplicate_world sneakyMgr sneakyState "world1" "world2" 99 "TS"
      none).2.1.metadata.getD []).getD 1 []) "name"
      ≠ some (.vStr ("Copy of " ++ "World One")) := by
  refine ⟨by decide, by decide, by decide, by decide⟩

/-- C3 witness: on the plain test fixture (source index without `name`
or `lastPlayed` keys) the amended claim yields the expected entry. -/
theorem claim_C3_metadata_patch_witness :
    (duplicate_world fixtureMgr fixtureState "world1" "world2" 1234567890
      "20200101000000" none).1 = some "world2_backup_20200101000000" ∧
    (duplicate_world fixtureMgr fixtureState "world1" "world2" 1234567890
      "20200101000000" none).2.1.metadata
      = some [[("id", .vStr "world1"), ("name", .vStr "World One"),
          ("createdAt", .vInt 0), ("lastPlayed", .vInt 0)],
        updateMetaEntry
          [("id", .vStr "world1"), ("time", .vInt 0), ("deleted", .vBool false),
            ("latest", .vInt 1)] "World One" 1234567890
          [("id", .vStr "world2"), ("name", .vStr "World Two"),
            ("createdAt", .vInt 0), ("lastPlayed", .vInt 0)]] ∧
    aget (updateMetaEntry
        [("id", .vStr "world1"), ("time", .vInt 0), ("deleted", .vBool false),
          ("latest", .vInt 1)] "World One" 1234567890
        [("id", .vStr "world2"), ("name", .vStr "World Two"),
          ("createdAt", .vInt 0), ("lastPlayed", .vInt 0)]) "name"
      = some (.vStr ("Copy of " ++ "World One")) ∧
    aget (updateMetaEntry
        [("id", .vStr "world1"), ("time", .vInt 0), ("deleted", .vBool false),
          ("latest", .vInt 1)] "World One" 1234567890
        [("id", .vStr "world2"), ("name", .vStr "World Two"),
          ("createdAt", .vInt 0), ("lastPlayed", .vInt 0)]) "lastPlayed"
      = some (.vInt 1234567890) := by
  obtain ⟨h1, h2, h3, h4, h5, h6⟩ :=
    claim_C3_metadata_patch
      ⟨"world1", "World One",
        [("id", .vStr "world1"), ("time", .vInt 0), ("deleted", .vBool false),
          ("latest", .vInt 1)], false, 0, 0⟩
      ⟨"world2", "World Two",
        [("id", .vStr "world2"), ("time", .vInt 0), ("deleted", .vBool false),
          ("latest", .vInt 2)], false, 0, 0⟩
      fixtureMgr fixtureState "world1" "world2" 1234567890 "20200101000000"
      [[("id", .vStr "world1"), ("name", .vStr "World One"),
        ("createdAt", .vInt 0), ("lastPlayed", .vInt 0)]]
      [("id", .vStr "world2"), ("name", .vStr "World Two"),
        ("createdAt", .vInt 0), ("lastPlayed", .vInt 0)]
      []
      (by decide) (by decide) (by decide) (by decide)
      (by decide) (by decide) (by decide)
  rw [show ("world2" ++ "_backup_" ++ "20200101000000" : String)
    = "world2_backup_20200101000000" from by decide] at h1
  exact ⟨h1, h2, h4 (by decide), h5 (by decide)⟩

/-- C1: the repository's rollback scenario (`shutil.copy2` succeeds
once and then raises, exactly as in
`tests/test_world_manager.py::test_duplicate_world_rollback`).  The
call does return `None`, but no restoration happens: the live
`world2-data` holds the half-copied source bytes instead of the
original `"target"`, the live `world2-index` is missing, and the
backup directory remains on disk with the target's pre-call files.
This contradicts the claim (and the repository's own test), which
require the target files to be moved back and the backup directory to
be gone. -/
theorem claim_C1_fault_leaves_backup :
    (duplicate_world fixtureMgr fixtureState "world1" "world2" 1234567890
      "20200101000000" (some 1)).1 = none ∧
    aget (duplicate_world fixtureMgr fixtureState "world1" "world2" 1234567890
      "20200101000000" (some 1)).2.2.save "world2-data" = some (.blob "source") ∧
    aget (duplicate_world fixtureMgr fixtureState "world1" "world2" 1234567890
      "20200101000000" (some 1)).2.2.save "world2-index" = none ∧
    (duplicate_world fixtureMgr fixtureState "world1" "world2" 1234567890
      "20200101000000" (some 1)).2.2.backups.map Prod.fst
      = ["world2_backup_20200101000000"] ∧
    aget (getBackup (duplicate_world fixtureMgr fixtureState "world1" "world2"
      1234567890 "20200101000000" (some 1)).2.2.backups
      "world2_backup_20200101000000") "world2-data" = some (.blob "target") ∧
    aget (getBackup (duplicate_world fixtureMgr fixtureState "world1" "world2"
      1234567890 "20200101000000" (some 1)).2.2.backups
      "world2_backup_20200101000000") "world2-index"
      = some (.doc [("id", .vStr "world2"), ("time", .vInt 0),
          ("deleted", .vBool false), ("latest", .vInt 2)]) := by
  refine ⟨by decide, by decide, by decide, by decide, by decide, by decide⟩

/-- C6 counterexample: with source id `a`, target id `b` and source
file `a-data`, Python's `str.replace` also rewrites the occurrences of
`a` inside `-data`, producing `b-dbtb`, while replacing only the
prefix occurrence (the claim's wording) would produce `b-data`. -/
theorem claim_C6_cex :
    new_name "a" "b" "a-data" = "b-dbtb" ∧
    spec_new_name "a" "b" "a-data" = "b-data" ∧
    new_name "a" "b" "a-data" ≠ spec_new_name "a" "b" "a-data" := by
  refine ⟨by decide, by decide, by decide⟩

/-- C6 (amended): the copy step derives the target-side name by
replacing every occurrence of `sourceId` in the file name with
`targetId` (Python `str.replace`); when `sourceId` occurs in the name
only as the leading prefix, this coincides with replacing just the
prefix occurrence, i.e. with `spec_new_name`. -/
theorem claim_C6_rename_derivation (sId tId rest : String) (hne : sId ≠ "")
    (hno : hasOccurB sId.toList rest.toList = false) :
    new_name sId tId (sId ++ rest) = tId ++ rest ∧
    new_name sId tId (sId ++ rest) = spec_new_name sId tId (sId ++ rest) := by
  have hlist : ∃ o os, sId.toList = o :: os := by
    cases hc : sId.toList with
    | nil =>
      exfalso
      apply hne
      rw [← String.toList_inj, hc]
      rfl
    | cons o os => exact ⟨o, os, rfl⟩
  obtain ⟨o, os, hol⟩ := hlist
  have hle : (sId ++ rest).toList = sId.toList ++ rest.toList := by
    show (sId ++ rest).data = sId.data ++ rest.data
    exact String.data_append sId rest
  have hmain : new_name sId tId (sId ++ rest) = tId ++ rest := by
    rw [new_name, pyReplace,
      if_neg (by
        intro hc
        exact hne ((String.isEmpty_iff sId).mp hc))]
    rw [← String.toList_inj]
    show pyRepAux sId.toList tId.toList (sId ++ rest).toList.length
      (sId ++ rest).toList = (tId ++ rest).toList
    rw [hle, hol]
    have hlen : ((o :: os) ++ rest.toList).length
        = (rest.toList.length + os.length) + 1 := by
      simp [List.length_append]
      omega
    rw [hlen, pyRepAux_head_match o os tId.toList rest.toList
      (rest.toList.length + os.length) (le_refl _),
      pyRepAux_no_occur _ _ _ _ (Nat.le_add_right _ _) (by rw [← hol]; exact hno)]
    show tId.toList ++ rest.toList = (tId ++ rest).data
    rw [String.data_append]
    rfl
  refine ⟨hmain, ?_⟩
  rw [hmain, spec_new_name, if_pos (by rw [hle]; exact listIsPre_append_self _ _)]
  rw [← String.toList_inj]
  show (tId ++ rest).data = (tId ++ ⟨((sId ++ rest).toList.drop sId.length)⟩).data
  rw [String.data_append, String.data_append]
  have : (sId ++ rest).toList.drop sId.length = rest.toList := by
    rw [hle]
    show (sId.data ++ rest.data).drop sId.data.length = rest.data
    exact List.drop_left sId.data rest.data
  rw [this]
  rfl

/-- C6 witness: the prefix-only situation of the test fixture, where
both readings agree. -/
theorem claim_C6_rename_derivation_witness :
    ("world1" : String) ≠ "" ∧
    hasOccurB "world1".toList "-data".toList = false ∧
    new_name "world1" "world2" ("world1" ++ "-data") = "world2" ++ "-data" :=
  ⟨by decide, by decide,
    (claim_C6_rename_derivation "world1" "world2" "-data" (by decide) (by decide)).1⟩

theorem is_valid_decomp {w : WorldInfo} {fs : FS} (h : w.is_valid fs = true) :
    w.is_deleted = false ∧ filesOf w.id fs ≠ [] := by
  rw [WorldInfo.is_valid, Bool.and_eq_true] at h
  constructor
  · have h1 := h.1
    cases hb : w.is_deleted
    · rfl
    · rw [hb] at h1
      simp at h1
  · intro hc
    have h2 := h.2
    rw [hc] at h2
    simp at h2

theorem is_valid_of_deleted {w : WorldInfo} {fs : FS} (h : w.is_deleted = true) :
    w.is_valid fs = false := by
  rw [WorldInfo.is_valid, h]
  rfl

theorem scanFold_valid (meta : Option (List Doc)) (save : FS) (fmt : Int → String) :
    ∀ (l : List (String × Content)) (acc : ScanAcc),
      (∀ p ∈ acc.worlds, p.2.is_deleted = false ∧ filesOf p.2.id save ≠ []) →
      ∀ p ∈ (l.foldl (scanStep meta save fmt) acc).worlds,
        p.2.is_deleted = false ∧ filesOf p.2.id save ≠ [] := by
  intro l
  induction l with
  | nil =>
    intro acc hacc
    exact hacc
  | cons e rest ih =>
    intro acc hacc
    rw [List.foldl_cons]
    apply ih
    intro p hp
    simp only [scanStep] at hp
    split at hp
    · split at hp
      · exact hacc p hp
      · split at hp
        case isTrue h3 =>
          rcases List.mem_append.mp hp with h | h
          · exact hacc p h
          · have hpe := List.mem_singleton.mp h
            obtain ⟨hd, hfi⟩ := is_valid_decomp h3
            rw [hpe]
            exact ⟨hd, hfi⟩
        case isFalse => exact hacc p hp
    · exact hacc p hp

theorem scanFold_excl (meta : Option (List Doc)) (save : FS) (fmt : Int → String)
    (wid : String) (c : Content)
    (hdel : truthy ((aget (parseDoc c) "deleted").getD (.vBool false)) = true) :
    ∀ (l : List (String × Content)) (acc : ScanAcc),
      (∀ d, (wid ++ "-index", d) ∈ l → d = c) →
      (∀ e ∈ l, endsWithB "-index" e.1 = true → worldIdOf e.1 = wid →
        e.1 = wid ++ "-index") →
      wid ∉ acc.wlist.map Prod.snd →
      wid ∉ ((l.foldl (scanStep meta save fmt) acc).wlist).map Prod.snd := by
  intro l
  induction l with
  | nil =>
    intro acc _ _ hacc
    exact hacc
  | cons e rest ih =>
    intro acc hcontent hnames hacc
    rw [List.foldl_cons]
    apply ih
    · intro d hd
      exact hcontent d (List.mem_cons.mpr (Or.inr hd))
    · intro e' he' h1 h2
      exact hnames e' (List.mem_cons.mpr (Or.inr he')) h1 h2
    · -- the step preserves absence of wid in the wlist
      simp only [scanStep]
      split
      case isTrue hends =>
        split
        case isTrue => exact hacc
        case isFalse hskip =>
          split
          case isTrue hval =>
            intro hmem
            rw [List.map_append, List.mem_append] at hmem
            rcases hmem with hmem | hmem
            · exact hacc hmem
            · have hw : worldIdOf e.1 = wid := by
                have hmm := hmem
                simp at hmm
                exact hmm.symm
              have hename : e.1 = wid ++ "-index" :=
                hnames e (List.mem_cons.mpr (Or.inl rfl)) hends hw
              have hec : e.2 = c := by
                apply hcontent
                rw [← hename]
                exact List.mem_cons.mpr (Or.inl rfl)
              rw [hec] at hval
              have := @is_valid_of_deleted ⟨worldIdOf e.1,
                (get_world_metadata meta (worldIdOf e.1)).1, parseDoc c,
                truthy ((aget (parseDoc c) "deleted").getD (.vBool false)),
                (get_world_metadata meta (worldIdOf e.1)).2.2,
                (get_world_metadata meta (worldIdOf e.1)).2.1⟩
                save hdel
              rw [hval] at this
              exact absurd this.symm (by simp)
          case isFalse => exact hacc
      case isFalse => exact hacc

/-- C7: every descriptor stored in the catalog by a scan is valid
(`is_deleted` false, non-empty live file set), and a world whose index
document has `deleted` set to `true` never appears in the scan output,
even when its files exist on disk. -/
theorem claim_C7_catalog_validity (m : Manager) (st : DiskState)
    (fmt : Int → String) (hnd : (st.save.map Prod.fst).Nodup) :
    (∀ p ∈ (scan_worlds m st fmt).1.worlds,
      p.2.is_deleted = false ∧ filesOf p.2.id st.save ≠ []) ∧
    (∀ wid c, aget st.save (wid ++ "-index") = some c →
      aget (parseDoc c) "deleted" = some (.vBool true) →
      (∀ p ∈ st.save, endsWithB "-index" p.1 = true → worldIdOf p.1 = wid →
        p.1 = wid ++ "-index") →
      wid ∉ (scan_worlds m st fmt).2.map Prod.snd) := by
  constructor
  · intro p hp
    exact scanFold_valid m.metadata st.save fmt st.save ⟨[], [], []⟩
      (fun q hq => absurd hq (List.not_mem_nil q)) p hp
  · intro wid c hidx hdel huniq
    have hdel' : truthy ((aget (parseDoc c) "deleted").getD (.vBool false)) = true := by
      rw [hdel]
      rfl
    have hnot := scanFold_excl m.metadata st.save fmt wid c hdel' st.save ⟨[], [], []⟩
      (fun d hd => by
        have := aget_of_mem_nodup hnd hd
        rw [this] at hidx
        exact Option.some.inj hidx)
      (fun e he h1 h2 => huniq e he h1 h2)
      (by simp)
    intro hmem
    apply hnot
    have hperm : ((List.insertionSort scanOrd
        ((st.save.foldl (scanStep m.metadata st.save fmt) ⟨[], [], []⟩).wlist)).map
          Prod.snd).Perm
        (((st.save.foldl (scanStep m.metadata st.save fmt) ⟨[], [], []⟩).wlist).map
          Prod.snd) :=
      (List.perm_insertionSort scanOrd _).map Prod.snd
    exact hperm.mem_iff.mp hmem

/-- C7 witness: a deleted world (index `deleted: true`, data file
present) is excluded from the scan of a two-world directory. -/
theorem claim_C7_catalog_validity_witness :
    aget [("d-index", Content.doc [("deleted", .vBool true)]),
        ("d-data", .blob "x"),
        ("live-index", .doc [("deleted", .vBool false)]),
        ("live-data", .blob "y")] ("d" ++ "-index")
      = some (.doc [("deleted", .vBool true)]) ∧
    "d" ∉ ((scan_worlds ⟨[], none, []⟩
      ⟨[("d-index", Content.doc [("deleted", .vBool true)]),
        ("d-data", .blob "x"),
        ("live-index", .doc [("deleted", .vBool false)]),
        ("live-data", .blob "y")], []⟩ (fun _ => "")).2.map Prod.snd) := by
  refine ⟨by decide, ?_⟩
  exact (claim_C7_catalog_validity ⟨[], none, []⟩
    ⟨[("d-index", Content.doc [("deleted", .vBool true)]),
      ("d-data", .blob "x"),
      ("live-index", .doc [("deleted", .vBool false)]),
      ("live-data", .blob "y")], []⟩ (fun _ => "") (by decide)).2
    "d" (.doc [("deleted", .vBool true)]) (by decide) (by decide) (by decide)

/-- C8: for a fixed on-disk state, a second scan without disk changes
returns the identical ordered list, and the returned
(displayName, id) list is sorted case-insensitively by display name. -/
theorem claim_C8_scan_idempotent_sorted (m : Manager) (st : DiskState)
    (fmt : Int → String) :
    (scan_worlds (scan_worlds m st fmt).1 st fmt).2 = (scan_worlds m st fmt).2 ∧
    ((scan_worlds m st fmt).2).Sorted scanOrd := by
  constructor
  · rfl
  · exact List.sorted_insertionSort scanOrd _

theorem scanStep_worlds_mono (meta : Option (List Doc)) (save : FS)
    (fmt : Int → String) (acc : ScanAcc) (e : String × Content) :
    ∃ ext, (scanStep meta save fmt acc e).worlds = acc.worlds ++ ext := by
  simp only [scanStep]
  split
  · split
    · exact ⟨[], by simp⟩
    · split
      · exact ⟨_, rfl⟩
      · exact ⟨[], by simp⟩
  · exact ⟨[], by simp⟩

theorem scanStep_wlist_mono (meta : Option (List Doc)) (save : FS)
    (fmt : Int → String) (acc : ScanAcc) (e : String × Content) :
    ∃ ext, (scanStep meta save fmt acc e).wlist = acc.wlist ++ ext := by
  simp only [scanStep]
  split
  · split
    · exact ⟨[], by simp⟩
    · split
      · exact ⟨_, rfl⟩
      · exact ⟨[], by simp⟩
  · exact ⟨[], by simp⟩

theorem scanFold_worlds_mono (meta : Option (List Doc)) (save : FS)
    (fmt : Int → String) :
    ∀ (l : List (String × Content)) (acc : ScanAcc),
      ∃ ext, (l.foldl (scanStep meta save fmt) acc).worlds = acc.worlds ++ ext := by
  intro l
  induction l with
  | nil => exact fun acc => ⟨[], by simp⟩
  | cons e rest ih =>
    intro acc
    rw [List.foldl_cons]
    obtain ⟨ext1, h1⟩ := scanStep_worlds_mono meta save fmt acc e
    obtain ⟨ext2, h2⟩ := ih (scanStep meta save fmt acc e)
    exact ⟨ext1 ++ ext2, by rw [h2, h1, List.append_assoc]⟩

theorem scanFold_wlist_mono (meta : Option (List Doc)) (save : FS)
    (fmt : Int → String) :
    ∀ (l : List (String × Content)) (acc : ScanAcc),
      ∃ ext, (l.foldl (scanStep meta save fmt) acc).wlist = acc.wlist ++ ext := by
  intro l
  induction l with
  | nil => exact fun acc => ⟨[], by simp⟩
  | cons e rest ih =>
    intro acc
    rw [List.foldl_cons]
    obtain ⟨ext1, h1⟩ := scanStep_wlist_mono meta save fmt acc e
    obtain ⟨ext2, h2⟩ := ih (scanStep meta save fmt acc e)
    exact ⟨ext1 ++ ext2, by rw [h2, h1, List.append_assoc]⟩

theorem is_valid_mk (wid nm : String) (idx : Doc) (lp cr : Int) (fs : FS)
    (hfi : filesOf wid fs ≠ []) :
    (WorldInfo.mk wid nm idx false lp cr).is_valid fs = true := by
  rw [WorldInfo.is_valid]
  cases hi : (filesOf (WorldInfo.mk wid nm idx false lp cr).id fs).isEmpty
  · rfl
  · exfalso
    exact hfi (List.isEmpty_iff.mp hi)

theorem scanFold_incl (meta : Option (List Doc)) (save : FS) (fmt : Int → String)
    (wid : String) (c : Content)
    (hbad : parseDoc c = [])
    (hch : wid ≠ "characters")
    (hwid : worldIdOf (wid ++ "-index") = wid)
    (hends : endsWithB "-index" (wid ++ "-index") = true)
    (hfiles : filesOf wid save ≠ []) :
    ∀ (l : List (String × Content)) (acc : ScanAcc),
      (wid ++ "-index", c) ∈ l →
      (∀ d, (wid ++ "-index", d) ∈ l → d = c) →
      (∀ e ∈ l, endsWithB "-index" e.1 = true → worldIdOf e.1 = wid →
        e.1 = wid ++ "-index") →
      wid ∉ acc.processed →
      (∃ info : WorldInfo,
        (wid, info) ∈ (l.foldl (scanStep meta save fmt) acc).worlds ∧
        info.index_data = [] ∧ info.is_deleted = false) ∧
      wid ∈ ((l.foldl (scanStep meta save fmt) acc).wlist).map Prod.snd := by
  intro l
  induction l with
  | nil =>
    intro acc hmem
    cases hmem
  | cons e rest ih =>
    intro acc hmem hcontent hnames hproc
    rw [List.foldl_cons]
    by_cases he1 : e.1 = wid ++ "-index"
    · -- this entry is the world's index file: it is processed now
      have hec : e.2 = c := by
        apply hcontent
        rw [← he1]
        exact List.mem_cons.mpr (Or.inl rfl)
      have he : e = (wid ++ "-index", c) := by
        rw [← he1, ← hec]
      have hstep : scanStep meta save fmt acc e
          = ⟨acc.processed ++ [wid],
             acc.worlds ++ [(wid, ⟨wid, (get_world_metadata meta wid).1, [],
               false, (get_world_metadata meta wid).2.2,
               (get_world_metadata meta wid).2.1⟩)],
             acc.wlist ++ [(display_name ⟨wid, (get_world_metadata meta wid).1,
               [], false, (get_world_metadata meta wid).2.2,
               (get_world_metadata meta wid).2.1⟩ fmt, wid)]⟩ := by
        rw [he]
        simp only [scanStep, hends, if_true, hwid, hbad]
        rw [if_neg (by
          intro hc
          rcases hc with hc | hc
          · exact hch hc
          · exact hproc hc)]
        have hdel : truthy ((aget ([] : Doc) "deleted").getD (.vBool false))
            = false := rfl
        simp only [hdel]
        rw [if_pos (is_valid_mk wid (get_world_metadata meta wid).1 [] _ _ save hfiles)]
      rw [hstep]
      obtain ⟨ext1, hw1⟩ := scanFold_worlds_mono meta save fmt rest _
      obtain ⟨ext2, hw2⟩ := scanFold_wlist_mono meta save fmt rest _
      constructor
      · refine ⟨⟨wid, (get_world_metadata meta wid).1, [], false,
          (get_world_metadata meta wid).2.2, (get_world_metadata meta wid).2.1⟩,
          ?_, rfl, rfl⟩
        rw [hw1]
        simp
      · rw [hw2]
        simp
    · -- a different entry: wid stays unprocessed and the index file is ahead
      have hmem' : (wid ++ "-index", c) ∈ rest := by
        rcases List.mem_cons.mp hmem with h | h
        · exfalso
          apply he1
          rw [← h]
        · exact h
      apply ih _ hmem'
        (fun d hd => hcontent d (List.mem_cons.mpr (Or.inr hd)))
        (fun e' he' h1 h2 => hnames e' (List.mem_cons.mpr (Or.inr he')) h1 h2)
      -- wid is still unprocessed after this step
      simp only [scanStep]
      split
      next hends' =>
        split
        next => exact hproc
        next hskip =>
          have hne : worldIdOf e.1 ≠ wid := by
            intro hc
            exact he1 (hnames e (List.mem_cons.mpr (Or.inl rfl)) hends' hc)
          split
          · intro hc
            rcases List.mem_append.mp hc with hc | hc
            · exact hproc hc
            · exact hne (List.mem_singleton.mp hc).symm
          · intro hc
            rcases List.mem_append.mp hc with hc | hc
            · exact hproc hc
            · exact hne (List.mem_singleton.mp hc).symm
      next => exact hproc

theorem takeWhile_append_stop (p : Char → Bool) (l : List Char) (d : Char)
    (t : List Char) (hall : ∀ c ∈ l, p c = true) (hd : p d = false) :
    (l ++ d :: t).takeWhile p = l := by
  induction l with
  | nil => simp [List.takeWhile, hd]
  | cons x xs ih =>
    rw [List.cons_append, List.takeWhile_cons,
      hall x (List.mem_cons.mpr (Or.inl rfl)),
      ih (fun c hc => hall c (List.mem_cons.mpr (Or.inr hc)))]
    simp

theorem worldIdOf_index (wid : String) (hdf : ∀ ch ∈ wid.toList, ch ≠ '-') :
    worldIdOf (wid ++ "-index") = wid := by
  rw [worldIdOf]
  have hdata : (wid ++ "-index").toList = wid.data ++ '-' :: "index".data := by
    show (wid ++ "-index").data = wid.data ++ '-' :: "index".data
    rw [String.data_append]
  rw [hdata, takeWhile_append_stop _ _ _ _
    (fun c hc => by
      have := hdf c hc
      simp [this])
    (by simp)]

theorem endsWithB_index (wid : String) :
    endsWithB "-index" (wid ++ "-index") = true := by
  rw [endsWithB]
  show listIsPre ("-index" : String).data.reverse
    ((wid ++ "-index") : String).data.reverse = true
  rw [String.data_append, List.reverse_append]
  exact listIsPre_append_self _ _

/-- C4 (amended): an index file whose JSON fails to parse is treated
as an empty document, but the world is then *included* in the catalog
and in the scan output, not excluded: `deleted` defaults to false and
the file set is non-empty, since it contains at least the index file
itself, so the validity rule admits it. -/
theorem claim_C4_unparseable_index_included (meta : Option (List Doc))
    (m0w : List (String × WorldInfo)) (c0 : List (String × String))
    (bs : List (String × FS)) (fmt : Int → String) (save : FS)
    (wid : String) (s : String)
    (hnd : (save.map Prod.fst).Nodup)
    (hmem : (wid ++ "-index", Content.blob s) ∈ save)
    (hch : wid ≠ "characters")
    (hdf : ∀ ch ∈ wid.toList, ch ≠ '-')
    (huniq : ∀ p ∈ save, endsWithB "-index" p.1 = true → worldIdOf p.1 = wid →
      p.1 = wid ++ "-index") :
    parseDoc (Content.blob s) = [] ∧
    (∃ info : WorldInfo,
      (wid, info) ∈ (scan_worlds ⟨m0w, meta, c0⟩ ⟨save, bs⟩ fmt).1.worlds ∧
      info.index_data = [] ∧ info.is_deleted = false) ∧
    wid ∈ ((scan_worlds ⟨m0w, meta, c0⟩ ⟨save, bs⟩ fmt).2.map Prod.snd) := by
  have hkey : wid ++ "-index" ∈ save.map Prod.fst :=
    List.mem_map.mpr ⟨(wid ++ "-index", Content.blob s), hmem, rfl⟩
  have hfiles : filesOf wid save ≠ [] :=
    List.ne_nil_of_mem (mem_filesOf.mpr ⟨matchesGlob_index_self wid, hkey⟩)
  have hcontent : ∀ d, (wid ++ "-index", d) ∈ save → d = Content.blob s := by
    intro d hd
    have h1 := aget_of_mem_nodup hnd hd
    have h2 := aget_of_mem_nodup hnd hmem
    rw [h1] at h2
    exact Option.some.inj h2
  obtain ⟨⟨info, hinfo, hidx, hdel⟩, hout⟩ :=
    scanFold_incl meta save fmt wid (Content.blob s) rfl hch
      (worldIdOf_index wid hdf) (endsWithB_index wid) hfiles
      save ⟨[], [], []⟩ hmem hcontent huniq (by simp)
  refine ⟨rfl, ⟨info, hinfo, hidx, hdel⟩, ?_⟩
  have hperm : ((List.insertionSort scanOrd
      ((save.foldl (scanStep meta save fmt) ⟨[], [], []⟩).wlist)).map
        Prod.snd).Perm
      (((save.foldl (scanStep meta save fmt) ⟨[], [], []⟩).wlist).map
        Prod.snd) :=
    (List.perm_insertionSort scanOrd _).map Prod.snd
  exact hperm.mem_iff.mpr hout

/-- C4 counterexample: the world with the corrupt index file appears
in the scan output and in the catalog, while the claim requires it to
be excluded. -/
theorem claim_C4_cex :
    aget garbageSave "w-index" = some (.blob "garbage") ∧
    parseDoc (.blob "garbage") = [] ∧
    ((scan_worlds ⟨[], some [[("id", .vStr "w"), ("name", .vStr "W")]], []⟩
      ⟨garbageSave, []⟩ (fun _ => "")).2).map Prod.snd = ["w"] ∧
    (mlookup (scan_worlds ⟨[], some [[("id", .vStr "w"), ("name", .vStr "W")]], []⟩
      ⟨garbageSave, []⟩ (fun _ => "")).1.worlds "w").isSome := by
  refine ⟨by decide, rfl, by decide, by decide⟩

/-- C4 witness: the amended claim applied to the corrupt-index state. -/
theorem claim_C4_unparseable_index_included_witness :
    ((garbageSave.map Prod.fst).Nodup ∧ ("w" ++ "-index", Content.blob "garbage") ∈ garbageSave) ∧
    parseDoc (Content.blob "garbage") = [] ∧
    "w" ∈ ((scan_worlds ⟨[], some [[("id", .vStr "w"), ("name", .vStr "W")]], []⟩
      ⟨garbageSave, []⟩ (fun _ => "")).2.map Prod.snd) := by
  have h := claim_C4_unparseable_index_included
    (some [[("id", .vStr "w"), ("name", .vStr "W")]]) [] [] [] (fun _ => "")
    garbageSave "w" "garbage" (by decide) (by decide) (by decide)
    (by decide) (by decide)
  exact ⟨⟨by decide, by decide⟩, h.1, h.2.2⟩
